import Mathlib

/-!
Verification development for the BioCUP hybrid retrieval-and-aggregation engine
(`backend/search/search.py`, with the sibling variant `backend/search/search_final.py`).

The Python code is shallowly embedded:
* Python `dict`s become insertion-ordered association lists `List (κ × ν)`
  (`alistSet` updates in place or appends, matching CPython dict semantics;
  `defaultdict(float)` reads become `alistGetD _ _ 0`).
* Python floats become exact rationals `ℚ` (the numeric claims are about the
  real-valued formulas, e.g. `1/(k+rank+1)`, `0.92^g`).
* The Qdrant backend is abstracted as an oracle `ℕ → List Point × List Point`
  giving, per input-chunk index, the dense and sparse ranked hit lists that
  `client.query_points` returns; a point payload is `Option Payload`, with
  `none` standing for a Python `None` or empty (falsy) payload dict.
* The Python payload key `"section"` is rendered as the Lean field name `sect`
  because `section` is a Lean keyword; everything else keeps the source names.
-/

/-- Insertion-ordered dictionary lookup (`d.get(k)`). -/
def alistGet {κ ν : Type} [BEq κ] (l : List (κ × ν)) (k : κ) : Option ν :=
  (l.find? (fun e => e.1 == k)).map (fun e => e.2)

/-- Dictionary lookup with default (`d.get(k, d0)`, also `defaultdict` reads). -/
def alistGetD {κ ν : Type} [BEq κ] (l : List (κ × ν)) (k : κ) (d0 : ν) : ν :=
  (alistGet l k).getD d0

/-- Dictionary write `d[k] = v`: updates the existing entry in place (keeping its
position, as CPython dicts do) or appends a fresh entry at the end. -/
def alistSet {κ ν : Type} [BEq κ] : List (κ × ν) → κ → ν → List (κ × ν)
  | [], k, v => [(k, v)]
  | e :: t, k, v => if e.1 == k then (k, v) :: t else e :: alistSet t k v

/-- Key list of a dictionary (`list(d.keys())`). -/
def alistKeys {κ ν : Type} (l : List (κ × ν)) : List κ :=
  l.map (fun e => e.1)

/-- Sum of the stored values (`sum(d.values())`). -/
def sumValues {κ : Type} (l : List (κ × ℚ)) : ℚ :=
  (l.map (fun e => e.2)).sum

theorem alistGet_nil {κ ν : Type} [BEq κ] (k : κ) :
    alistGet ([] : List (κ × ν)) k = none := rfl

theorem alistGet_cons {κ ν : Type} [BEq κ] (e : κ × ν) (t : List (κ × ν)) (k : κ) :
    alistGet (e :: t) k = if e.1 == k then some e.2 else alistGet t k := by
  simp only [alistGet, List.find?]
  cases h : e.1 == k <;> simp [h]

theorem alistSet_nil {κ ν : Type} [BEq κ] (k : κ) (v : ν) :
    alistSet ([] : List (κ × ν)) k v = [(k, v)] := rfl

theorem alistSet_cons {κ ν : Type} [BEq κ] (e : κ × ν) (t : List (κ × ν)) (k : κ) (v : ν) :
    alistSet (e :: t) k v = if e.1 == k then (k, v) :: t else e :: alistSet t k v := rfl

theorem alistGet_set_self {κ ν : Type} [BEq κ] [LawfulBEq κ]
    (l : List (κ × ν)) (k : κ) (v : ν) :
    alistGet (alistSet l k v) k = some v := by
  induction l with
  | nil => simp [alistSet_nil, alistGet_cons]
  | cons e t ih =>
    rw [alistSet_cons]
    by_cases h : e.1 = k
    · simp [h, alistGet_cons]
    · simp only [beq_iff_eq, h, if_false]
      rw [alistGet_cons, if_neg (by simpa using h)]
      exact ih

theorem alistGet_set_ne {κ ν : Type} [BEq κ] [LawfulBEq κ]
    (l : List (κ × ν)) (k k' : κ) (v : ν) (hne : k ≠ k') :
    alistGet (alistSet l k v) k' = alistGet l k' := by
  induction l with
  | nil => simp [alistSet_nil, alistGet_cons, alistGet_nil, hne]
  | cons e t ih =>
    rw [alistSet_cons]
    by_cases h : e.1 = k
    · subst h
      simp [alistGet_cons, hne]
    · simp only [beq_iff_eq, h, if_false]
      rw [alistGet_cons, alistGet_cons, ih]

theorem alistKeys_set {κ ν : Type} [BEq κ] [LawfulBEq κ]
    (l : List (κ × ν)) (k : κ) (v : ν) (hmem : k ∈ alistKeys l) :
    alistKeys (alistSet l k v) = alistKeys l := by
  induction l with
  | nil => simp [alistKeys] at hmem
  | cons e t ih =>
    rw [alistSet_cons]
    by_cases h : e.1 = k
    · simp [h, alistKeys]
    · simp only [alistKeys, List.map_cons, List.mem_cons] at hmem
      rcases hmem with h1 | h1
      · exact absurd h1.symm h
      · simp only [beq_iff_eq, h, if_false, alistKeys, List.map_cons]
        rw [show List.map (fun e => e.1) (alistSet t k v) = alistKeys (alistSet t k v) from rfl,
          ih h1]
        rfl

theorem alistKeys_set_not_mem {κ ν : Type} [BEq κ] [LawfulBEq κ]
    (l : List (κ × ν)) (k : κ) (v : ν) (hmem : k ∉ alistKeys l) :
    alistKeys (alistSet l k v) = alistKeys l ++ [k] := by
  induction l with
  | nil => simp [alistSet_nil, alistKeys]
  | cons e t ih =>
    simp only [alistKeys, List.map_cons, List.mem_cons] at hmem
    push_neg at hmem
    rw [alistSet_cons, if_neg (by simpa using hmem.1.symm)]
    simp only [alistKeys, List.map_cons, List.cons_append]
    rw [show List.map (fun e => e.1) (alistSet t k v) = alistKeys (alistSet t k v) from rfl,
      ih hmem.2]
    rfl

theorem alistKeys_nodup_set {κ ν : Type} [BEq κ] [LawfulBEq κ]
    (l : List (κ × ν)) (k : κ) (v : ν) (hnd : (alistKeys l).Nodup) :
    (alistKeys (alistSet l k v)).Nodup := by
  by_cases hmem : k ∈ alistKeys l
  · rwa [alistKeys_set l k v hmem]
  · rw [alistKeys_set_not_mem l k v hmem]
    simpa [List.nodup_append] using ⟨hnd, hmem⟩

/-- Membership in the association list implies the key is in the key list. -/
theorem mem_alistKeys_of_mem {κ ν : Type} {l : List (κ × ν)} {e : κ × ν}
    (h : e ∈ l) : e.1 ∈ alistKeys l :=
  List.mem_map.mpr ⟨e, h, rfl⟩

theorem mem_of_alistGet_eq_some {κ ν : Type} [BEq κ] [LawfulBEq κ]
    {l : List (κ × ν)} {k : κ} {v : ν} (h : alistGet l k = some v) : (k, v) ∈ l := by
  induction l with
  | nil => simp [alistGet] at h
  | cons e t ih =>
    rw [alistGet_cons] at h
    by_cases hk : e.1 = k
    · rw [if_pos (by simpa using hk)] at h
      have he : e = (k, v) := by
        cases e
        cases hk
        simpa using h
      simp [he]
    · rw [if_neg (by simpa using hk)] at h
      exact List.mem_cons_of_mem _ (ih h)

theorem alistGet_eq_none_of_not_mem {κ ν : Type} [BEq κ] [LawfulBEq κ]
    {l : List (κ × ν)} {k : κ} (h : k ∉ alistKeys l) : alistGet l k = none := by
  induction l with
  | nil => rfl
  | cons e t ih =>
    simp only [alistKeys, List.map_cons, List.mem_cons] at h
    push_neg at h
    rw [alistGet_cons, if_neg (by simpa using h.1.symm)]
    exact ih h.2

theorem alistGet_isSome_of_mem_keys {κ ν : Type} [BEq κ] [LawfulBEq κ]
    {l : List (κ × ν)} {k : κ} (h : k ∈ alistKeys l) : (alistGet l k).isSome := by
  induction l with
  | nil => simp [alistKeys] at h
  | cons e t ih =>
    rw [alistGet_cons]
    by_cases hk : e.1 = k
    · simp [hk]
    · simp only [alistKeys, List.map_cons, List.mem_cons] at h
      rcases h with h | h
      · exact absurd h.symm hk
      · rw [if_neg (by simpa using hk)]
        exact ih h

-- ============================================================
-- Data model: payloads and retrieved points
-- ============================================================

/-- Payload of an indexed corpus chunk, as read by the engine.  `Option` fields
model Python `dict.get` misses / `None` values; `chunk_id_raw` is only used by
the `search_final.py` variant for the CSV text join.  `sect` renders the Python
payload key `"section"` (a Lean keyword). -/
structure Payload where
  primary_site : Option String
  case_id : Option String
  sect : Option String
  chunk_text : Option String
  chunk_id_raw : Option String
deriving DecidableEq, Repr

/-- A scored point returned by a Qdrant query.  `payload = none` models a
`None` (or empty, hence falsy) payload dict. -/
structure Point where
  id : ℕ
  payload : Option Payload
deriving DecidableEq, Repr

/-- Python truthiness of an optional string (`if not site: ...`). -/
def truthy : Option String → Bool
  | none => false
  | some s => !(s == "")

/-- ASCII-wise `str.lower()` (same behavior as `String.toLower`, stated over the char
list so that proofs can evaluate it). -/
def strLower (s : String) : String := ⟨s.data.map Char.toLower⟩

/-- ASCII-wise `str.upper()` (same behavior as `String.toUpper`, stated over the char
list so that proofs can evaluate it). -/
def strUpper (s : String) : String := ⟨s.data.map Char.toUpper⟩

/-- Empty payload dict (`best_payload_this_chunk.get(cid, {})`). -/
def emptyPayload : Payload := ⟨none, none, none, none, none⟩

-- ============================================================
-- Configuration constants (search.py)
-- ============================================================

def K_DENSE : ℕ := 80
def K_SPARSE : ℕ := 80
def K_FUSED : ℕ := 50
def RRF_K : ℕ := 60
def MAX_CASES_PER_INPUT_CHUNK : ℕ := 15
def MAX_EVIDENCE_PER_SITE : ℕ := 6
def CONSISTENCY_BONUS : ℚ := 0.20

/-- `SECTION_WEIGHT` lookup table of `search.py`. -/
def SECTION_WEIGHT : List (String × ℚ) :=
  [("IHC", 2.4), ("DIAGNOSIS", 2.0), ("SYNOPTIC", 1.5), ("LYMPH_NODES", 1.2),
   ("MARGINS", 1.1), ("MICRO", 0.7), ("GROSS", 0.5), ("SPECIMEN", 0.3),
   ("GENERAL", 0.7), ("COMMENT", 0.6)]

/-- `w_section` of `search.py`: `SECTION_WEIGHT.get((section or "GENERAL").upper(), 1.0)`. -/
def w_section (sec : String) : ℚ :=
  alistGetD SECTION_WEIGHT (strUpper (if sec == "" then "GENERAL" else sec)) 1.0

-- ============================================================
-- Generic / strong text patterns and the clinical quality boost
-- ============================================================

def GENERIC_PATTERNS : List String :=
  ["negative for malignancy", "no tumor seen", "free of tumor", "margins negative",
   "resection margins negative", "lymph nodes negative", "no lymph node metastasis",
   "n0", "pno", "tumor size", "greatest dimension", "pt", "pn", "pm",
   "pathologic staging", "tnm", "specimen received", "submitted in toto",
   "gross description"]

def STRONG_PATTERNS : List String :=
  ["ttf-1", "napsin a", "cdx2", "ck20", "satb2", "er", "pr", "her2", "gata3",
   "psa", "psap", "nkx3.1", "pax8", "wt1", "heppar-1", "arg1", "ck7", "ck5/6", "p63"]

/-- Character-list prefix test. -/
def charsPrefix : List Char → List Char → Bool
  | [], _ => true
  | _ :: _, [] => false
  | a :: as, b :: bs => a == b && charsPrefix as bs

/-- Character-list substring containment, modelling the Python `p in txt` test. -/
def charsInfix (pat : List Char) : List Char → Bool
  | [] => charsPrefix pat []
  | hay@(_ :: rest) => charsPrefix pat hay || charsInfix pat rest

/-- `pat in txt` on strings. -/
def strContains (txt pat : String) : Bool := charsInfix pat.data txt.data

/-- `sum(1 for p in pats if p in txt)`: the number of patterns occurring in `txt`. -/
def countPatterns (pats : List String) (txt : String) : ℕ :=
  (pats.filter (fun p => strContains txt p)).length

/-- `clinical_quality_boost` of `search.py`: multiplicative quality factor on a
case best payload. -/
def clinical_quality_boost (payload : Payload) : ℚ :=
  let sec := strUpper (payload.sect.getD "")
  let txt := strLower (payload.chunk_text.getD "")
  let boost : ℚ := 1.0
  let boost := if sec = "IHC" ∨ sec = "DIAGNOSIS" ∨ sec = "SYNOPTIC" then boost * 1.15
    else if sec = "GROSS" ∨ sec = "MICRO" ∨ sec = "SPECIMEN" then boost * 0.90
    else boost
  let boost := boost * (0.92 : ℚ) ^ countPatterns GENERIC_PATTERNS txt
  let boost := boost * (1.06 : ℚ) ^ countPatterns STRONG_PATTERNS txt
  boost

/-- `is_strong_section` of `search.py`; `none` models a payload whose section is
Python `None` (for which `str(None).upper() = "NONE"` is not strong). -/
def is_strong_section (sec : Option String) : Bool :=
  let u := strUpper (sec.getD "None")
  u == "IHC" || u == "DIAGNOSIS" || u == "SYNOPTIC"

-- ============================================================
-- RRF fusion (search.py)
-- ============================================================

/-- One pass of `rrf_fuse` over a ranked point list, accumulating the
`id2score` and `id2payload` dicts; `rank` is the zero-based enumeration index. -/
def rrfFold (k : ℕ) : List Point → ℕ → List (ℕ × ℚ) → List (ℕ × Payload) →
    List (ℕ × ℚ) × List (ℕ × Payload)
  | [], _, sc, pl => (sc, pl)
  | p :: rest, rank, sc, pl =>
    let sc2 := alistSet sc p.id (alistGetD sc p.id 0.0 + 1 / ((k : ℚ) + rank + 1))
    let pl2 := match p.payload with
      | some pay => if (alistGet pl p.id).isNone then pl ++ [(p.id, pay)] else pl
      | none => pl
    rrfFold k rest (rank + 1) sc2 pl2

/-- Stable insertion of an element below all elements whose key is `≥` its own
(so that Python `sorted(..., reverse=True)` tie order is preserved). -/
def insertDescBy {α : Type} (key : α → ℚ) (x : α) : List α → List α
  | [] => [x]
  | y :: t => if key x ≤ key y then y :: insertDescBy key x t else x :: y :: t

/-- Stable descending sort by a rational key, modelling
`sorted(items, key=..., reverse=True)`. -/
def sortDescBy {α : Type} (key : α → ℚ) (l : List α) : List α :=
  l.foldl (fun acc x => insertDescBy key x acc) []

/-- Stable descending sort of dict items by value, modelling
`sorted(items, key=lambda x: x[1], reverse=True)`. -/
def sortDesc {α : Type} (l : List (α × ℚ)) : List (α × ℚ) :=
  sortDescBy (fun e => e.2) l

/-- `rrf_fuse` of `search.py`: returns the fused id ranking, the score dict and
the payload dict. -/
def rrf_fuse (dense_points sparse_points : List Point) (k : ℕ) :
    List ℕ × List (ℕ × ℚ) × List (ℕ × Payload) :=
  let st1 := rrfFold k dense_points 0 [] []
  let st2 := rrfFold k sparse_points 0 st1.1 st1.2
  let fused := sortDesc st2.1
  (fused.map (fun e => e.1), st2.1, st2.2)

-- ============================================================
-- predict_primary_site (search.py): per-chunk processing
-- ============================================================

/-- One input chunk as the engine sees it after retrieval: its meta `section`
string and the dense/sparse ranked hit lists the backend returned for it. -/
structure RetrievedChunk where
  sect : String
  densePts : List Point
  sparsePts : List Point
deriving DecidableEq, Repr

/-- Per-chunk reduction (lines 315-330 of `search.py`): keep the best
`contrib = rrf_score * sec_w` per case, with the matching payload. -/
def reduceStep (scores : List (ℕ × ℚ)) (payloads : List (ℕ × Payload)) (secW : ℚ)
    (acc : List (String × ℚ) × List (String × Payload)) (pid : ℕ) :
    List (String × ℚ) × List (String × Payload) :=
  match alistGet payloads pid with
  | none => acc
  | some payload =>
    if truthy payload.primary_site && truthy payload.case_id then
      let cid := payload.case_id.getD ""
      let contrib := alistGetD scores pid 0.0 * secW
      if alistGetD acc.1 cid 0.0 < contrib then
        (alistSet acc.1 cid contrib, alistSet acc.2 cid payload)
      else acc
    else acc

def reduceChunk (fusedIds : List ℕ) (scores : List (ℕ × ℚ)) (payloads : List (ℕ × Payload))
    (secW : ℚ) : List (String × ℚ) × List (String × Payload) :=
  fusedIds.foldl (reduceStep scores payloads secW) ([], [])

/-- `rrf_fuse(dense_pts, sparse_pts, k=RRF_K)` for one chunk. -/
def chunkFused (c : RetrievedChunk) : List ℕ × List (ℕ × ℚ) × List (ℕ × Payload) :=
  rrf_fuse c.densePts c.sparsePts RRF_K

/-- `fused_ids = fused_ids[:K_FUSED]`. -/
def chunkFusedTop (c : RetrievedChunk) : List ℕ :=
  (chunkFused c).1.take K_FUSED

/-- `best_case_this_chunk` / `best_payload_this_chunk` for one chunk. -/
def chunkReduced (c : RetrievedChunk) : List (String × ℚ) × List (String × Payload) :=
  reduceChunk (chunkFusedTop c) (chunkFused c).2.1 (chunkFused c).2.2 (w_section c.sect)

/-- `top_cases = sorted(best_case_this_chunk.items(), ..., reverse=True)[:MAX_CASES_PER_INPUT_CHUNK]`. -/
def chunkTopCases (c : RetrievedChunk) : List (String × ℚ) :=
  (sortDesc (chunkReduced c).1).take MAX_CASES_PER_INPUT_CHUNK

/-- The per-chunk result that feeds the cross-chunk aggregation: the retained
`(cid, contrib)` pairs with `payload = best_payload_this_chunk.get(cid, {})`. -/
def chunkBatch (c : RetrievedChunk) : List (String × ℚ × Payload) :=
  (chunkTopCases c).map (fun e => (e.1, e.2, alistGetD (chunkReduced c).2 e.1 emptyPayload))

-- ============================================================
-- Cross-chunk aggregation (lines 335-352 of search.py)
-- ============================================================

/-- The per-request case accumulator: `case_total_score`,
`case_supported_by_chunks` (sets as dedup lists), `case_best_payload`,
`case_best_score` and `case_site` of `search.py`. -/
structure CaseAcc where
  total : List (String × ℚ)
  support : List (String × List ℕ)
  bestPayload : List (String × Payload)
  bestScore : List (String × ℚ)
  site : List (String × String)
deriving DecidableEq, Repr

def emptyAcc : CaseAcc := ⟨[], [], [], [], []⟩

/-- Body of `for cid, contrib in top_cases:` — one retained case of input chunk
`i` merged into the accumulator. -/
def processItem (i : ℕ) (acc : CaseAcc) (item : String × ℚ × Payload) : CaseAcc :=
  let cid := item.1
  let contrib := item.2.1
  let payload := item.2.2
  let sup := alistGetD acc.support cid []
  let support := alistSet acc.support cid (if i ∈ sup then sup else sup ++ [i])
  let total := alistSet acc.total cid (alistGetD acc.total cid 0.0 + contrib)
  let site := match payload.primary_site with
    | some s => if s == "" then acc.site else alistSet acc.site cid s
    | none => acc.site
  if alistGetD acc.bestScore cid 0.0 < contrib then
    { total := total, support := support, site := site,
      bestScore := alistSet acc.bestScore cid contrib,
      bestPayload := alistSet acc.bestPayload cid payload }
  else
    { total := total, support := support, site := site,
      bestScore := acc.bestScore, bestPayload := acc.bestPayload }

/-- Merge one input chunk's retained cases (its index paired with its batch)
into the accumulator. -/
def processBatch (acc : CaseAcc) (ib : ℕ × List (String × ℚ × Payload)) : CaseAcc :=
  ib.2.foldl (processItem ib.1) acc

/-- Cross-chunk aggregation as a fold over the per-chunk results in a given
processing order. -/
def aggChunks (l : List (ℕ × List (String × ℚ × Payload))) : CaseAcc :=
  l.foldl processBatch emptyAcc

/-- The processing order used by the source: chunk indices `0..N-1` in order,
each paired with its per-chunk result. -/
def enumBatches (chunks : List RetrievedChunk) : List (ℕ × List (String × ℚ × Payload)) :=
  chunks.enum.map (fun ia => (ia.1, chunkBatch ia.2))

-- ============================================================
-- Final scoring, evidence, calibration, normalization
-- ============================================================

/-- Consistency bonus `1.0 + CONSISTENCY_BONUS * max(0, support - 1)`. -/
def bonusOf (support : ℕ) : ℚ :=
  1.0 + CONSISTENCY_BONUS * ((max 0 ((support : ℤ) - 1) : ℤ) : ℚ)

/-- `case_final_score` (lines 357-365): summed contributions times consistency
bonus times clinical quality boost. -/
def case_final_score (acc : CaseAcc) : List (String × ℚ) :=
  acc.total.map (fun e =>
    let support := (alistGetD acc.support e.1 []).length
    let bonus := bonusOf support
    let payload := alistGetD acc.bestPayload e.1 emptyPayload
    let qual := clinical_quality_boost payload
    (e.1, e.2 * bonus * qual))

/-- `site_scores` before calibration (lines 370-374). -/
def siteScoresStep (acc : CaseAcc) (m : List (String × ℚ)) (e : String × ℚ) :
    List (String × ℚ) :=
  match alistGet acc.site e.1 with
  | some site => if site == "" then m else alistSet m site (alistGetD m site 0.0 + e.2)
  | none => m

def site_scores_pre (acc : CaseAcc) (caseFinal : List (String × ℚ)) : List (String × ℚ) :=
  caseFinal.foldl (siteScoresStep acc) []

/-- One evidence row built for a contributing case (lines 389-395). -/
structure EvidenceItem where
  case_id : String
  score : ℚ
  sect : Option String
  snippet : String
  chunk_id_raw : Option String
deriving DecidableEq, Repr

/-- `(txt[:220] + "...") if len(txt) > 220 else txt`. -/
def snippetOf (txt : String) : String :=
  if 220 < txt.length then txt.take 220 ++ "..." else txt

/-- `evidence_by_site` before per-site sorting/truncation (lines 379-395). -/
def evidenceStep (acc : CaseAcc) (m : List (String × List EvidenceItem)) (e : String × ℚ) :
    List (String × List EvidenceItem) :=
  match alistGet acc.site e.1 with
  | none => m
  | some site =>
    if site == "" then m else
    let payload := alistGetD acc.bestPayload e.1 emptyPayload
    let txt := payload.chunk_text.getD ""
    let item : EvidenceItem :=
      { case_id := payload.case_id.getD e.1, score := e.2, sect := payload.sect,
        snippet := snippetOf txt, chunk_id_raw := payload.chunk_id_raw }
    alistSet m site (alistGetD m site [] ++ [item])

def evidenceRaw (acc : CaseAcc) (caseFinal : List (String × ℚ)) :
    List (String × List EvidenceItem) :=
  caseFinal.foldl (evidenceStep acc) []

/-- The evidence selection the source applies per site (lines 397-402):
sort by score descending, keep the first `MAX_EVIDENCE_PER_SITE`. -/
def evSelect_code (l : List EvidenceItem) : List EvidenceItem :=
  (sortDescBy (fun d => d.score) l).take MAX_EVIDENCE_PER_SITE

/-- `evidence_by_site` after applying a per-site evidence selection `sel`
(the source uses `evSelect_code`). -/
def evidence_by_site_with (sel : List EvidenceItem → List EvidenceItem)
    (acc : CaseAcc) (caseFinal : List (String × ℚ)) : List (String × List EvidenceItem) :=
  (evidenceRaw acc caseFinal).map (fun e => (e.1, sel e.2))

/-- `site_strong_counts` (lines 408-413): per site, how many evidence rows have
a strong section. -/
def site_strong_counts (ev : List (String × List EvidenceItem)) : List (String × ℕ) :=
  ev.map (fun e => (e.1, (e.2.filter (fun it => is_strong_section it.sect)).length))

/-- Calibration (lines 415-417): for each site key, multiply the site score by
0.75 when its strong count is below 2. -/
def calibrate (sites : List (String × ℚ)) (strong : List (String × ℕ)) :
    List (String × ℚ) :=
  (alistKeys sites).foldl (fun m site =>
    if alistGetD strong site 0 < 2 then alistSet m site (alistGetD m site 0.0 * 0.75) else m)
    sites

/-- Normalization (lines 422-423): percentages if the total is positive, the
empty mapping otherwise. -/
def normalizePct (sites : List (String × ℚ)) : List (String × ℚ) :=
  let total := sumValues sites
  if 0 < total then sites.map (fun e => (e.1, e.2 / total * 100.0)) else []

/-- The debug trace returned alongside the probabilities (the static `params`
block of the source is omitted; its constants are the defs above). -/
structure Debug where
  sorted_sites : List (String × ℚ)
  site_scores : List (String × ℚ)
  n_input_chunks : ℕ
  case_supported_by_chunks : List (String × ℕ)
  evidence : List (String × List EvidenceItem)
  site_strong_counts : List (String × ℕ)
deriving DecidableEq, Repr

/-- Everything after the chunk loop of `predict_primary_site`, parameterized by
the per-site evidence selection (the source fixes it to `evSelect_code`). -/
def postAggregateWith (sel : List EvidenceItem → List EvidenceItem) (n : ℕ)
    (acc : CaseAcc) : List (String × ℚ) × Debug :=
  let caseFinal := case_final_score acc
  let sitesPre := site_scores_pre acc caseFinal
  let ev := evidence_by_site_with sel acc caseFinal
  let strong := site_strong_counts ev
  let sitesCal := calibrate sitesPre strong
  let pct := normalizePct sitesCal
  (pct, { sorted_sites := sortDesc pct, site_scores := sitesCal, n_input_chunks := n,
          case_supported_by_chunks := acc.support.map (fun e => (e.1, e.2.length)),
          evidence := ev, site_strong_counts := strong })

/-- `predict_primary_site` after the alignment assert, with a parameterized
evidence selection. -/
def predictOkWith (sel : List EvidenceItem → List EvidenceItem)
    (chunks : List RetrievedChunk) : List (String × ℚ) × Debug :=
  postAggregateWith sel chunks.length (aggChunks (enumBatches chunks))

/-- `predict_primary_site` after the alignment assert (the source behavior). -/
def predictOk (chunks : List RetrievedChunk) : List (String × ℚ) × Debug :=
  predictOkWith evSelect_code chunks

/-- Full `predict_primary_site` of `search.py`: loads the aligned input arrays,
asserts their alignment (`dense.shape[0] == N == len(sp_indices) == len(sp_values)`),
then runs the chunk loop against the retrieval oracle.  The dense/sparse input
vectors are opaque (`ℕ` tokens): the engine only forwards them to the backend,
which the oracle abstracts per chunk index. -/
def predictE (meta : List String) (dense spIndices spValues : List ℕ)
    (oracle : ℕ → List Point × List Point) :
    Except String (List (String × ℚ) × Debug) :=
  let N := meta.length
  if dense.length = N ∧ N = spIndices.length ∧ spIndices.length = spValues.length then
    Except.ok (predictOk ((List.range N).map (fun i =>
      { sect := meta.getD i "GENERAL", densePts := (oracle i).1, sparsePts := (oracle i).2 })))
  else
    Except.error "Input files misaligned"

-- ============================================================
-- The search_final.py variant of predict_primary_site
-- ============================================================

/-- `SECTION_WEIGHT` of `search_final.py` (no MICRO/GROSS/SPECIMEN entries). -/
def SECTION_WEIGHT_FINAL : List (String × ℚ) :=
  [("IHC", 2.4), ("DIAGNOSIS", 2.0), ("SYNOPTIC", 1.5), ("LYMPH_NODES", 1.2),
   ("MARGINS", 1.1), ("GENERAL", 0.7), ("COMMENT", 0.6)]

/-- `w_section` of `search_final.py`. -/
def w_section_final (sec : String) : ℚ :=
  alistGetD SECTION_WEIGHT_FINAL (strUpper (if sec == "" then "GENERAL" else sec)) 1.0

/-- One pass of `rrf_fuse` of `search_final.py`: `payload.setdefault(p.id, p.payload)`
stores even a `None` payload, which then blocks later inserts for the same id. -/
def rrfFoldF (k : ℕ) : List Point → ℕ → List (ℕ × ℚ) → List (ℕ × Option Payload) →
    List (ℕ × ℚ) × List (ℕ × Option Payload)
  | [], _, sc, pl => (sc, pl)
  | p :: rest, rank, sc, pl =>
    let sc2 := alistSet sc p.id (alistGetD sc p.id 0.0 + 1 / ((k : ℚ) + rank + 1))
    let pl2 := if (alistGet pl p.id).isSome then pl else pl ++ [(p.id, p.payload)]
    rrfFoldF k rest (rank + 1) sc2 pl2

/-- `rrf_fuse` of `search_final.py`; `ids = sorted(score, key=score.get, reverse=True)`
is the key list of the stable descending sort of the score items. -/
def rrf_fuse_final (dense_pts sparse_pts : List Point) (k : ℕ) :
    List ℕ × List (ℕ × ℚ) × List (ℕ × Option Payload) :=
  let st1 := rrfFoldF k dense_pts 0 [] []
  let st2 := rrfFoldF k sparse_pts 0 st1.1 st1.2
  ((sortDesc st2.1).map (fun e => e.1), st2.1, st2.2)

/-- Request state of `search_final.py`: `case_score`, `case_chunks`,
`case_payload`, `case_site`. -/
structure CaseAccF where
  score : List (String × ℚ)
  chunks : List (String × List ℕ)
  payload : List (String × Payload)
  site : List (String × String)
deriving DecidableEq, Repr

def emptyAccF : CaseAccF := ⟨[], [], [], []⟩

/-- Per-chunk reduction of `search_final.py` (lines 163-177).  Unlike
`search.py`, the global `case_payload`/`case_site` dicts are updated inside
this loop, so they are threaded through. -/
def reduceChunkF (fusedIds : List ℕ) (scores : List (ℕ × ℚ))
    (payloads : List (ℕ × Option Payload)) (secW : ℚ)
    (casePayload : List (String × Payload)) (caseSite : List (String × String)) :
    List (String × ℚ) × List (String × Payload) × List (String × String) :=
  fusedIds.foldl (fun st pid =>
    match alistGet payloads pid with
    | none => st
    | some none => st
    | some (some pl) =>
      if truthy pl.case_id && truthy pl.primary_site then
        let cid := pl.case_id.getD ""
        let site := pl.primary_site.getD ""
        let sc := alistGetD scores pid 0.0 * secW
        if alistGetD st.1 cid 0.0 < sc then
          (alistSet st.1 cid sc, alistSet st.2.1 cid pl, alistSet st.2.2 cid site)
        else st
      else st) ([], casePayload, caseSite)

/-- One iteration of the chunk loop of `search_final.py` (lines 141-181):
fuse, reduce (updating the global payload/site dicts), truncate to the top
cases, and add the retained scores and the chunk index support. -/
def chunkStepF (st : CaseAccF) (ic : ℕ × RetrievedChunk) : CaseAccF :=
  let i := ic.1
  let c := ic.2
  let fused := rrf_fuse_final c.densePts c.sparsePts RRF_K
  let red := reduceChunkF (fused.1.take K_FUSED) fused.2.1 fused.2.2
    (w_section_final c.sect) st.payload st.site
  let top := (sortDesc red.1).take MAX_CASES_PER_INPUT_CHUNK
  top.foldl (fun acc e =>
    { acc with
      score := alistSet acc.score e.1 (alistGetD acc.score e.1 0.0 + e.2),
      chunks := alistSet acc.chunks e.1
        (let s := alistGetD acc.chunks e.1 []
         if i ∈ s then s else s ++ [i]) })
    { st with payload := red.2.1, site := red.2.2 }

/-- Debug trace of `search_final.py` (`sorted_sites`, `evidence`, `n_input_chunks`). -/
structure DebugFinal where
  sorted_sites : List (String × ℚ)
  evidence : List (String × List EvidenceItem)
  n_input_chunks : ℕ
deriving DecidableEq, Repr

/-- The chunk loop of `search_final.py`.  `N = len(meta)` drives the loop and
there is NO alignment assert: `dense[i]` / `sp["indices"][i]` /
`sp["values"][i]` raise only when the index is actually out of range. -/
def finalChunkLoop (meta : List String) (dense spIndices spValues : List ℕ)
    (oracle : ℕ → List Point × List Point) :
    List ℕ → CaseAccF → Except String CaseAccF
  | [], st => Except.ok st
  | i :: rest, st =>
    if i < dense.length ∧ i < spIndices.length ∧ i < spValues.length then
      finalChunkLoop meta dense spIndices spValues oracle rest
        (chunkStepF st (i, { sect := meta.getD i "GENERAL",
                             densePts := (oracle i).1, sparsePts := (oracle i).2 }))
    else Except.error "IndexError"

/-- `predict_primary_site` of `search_final.py`: no alignment assert, no
clinical quality boost, no strong-evidence calibration; evidence text comes
from the CSV join `CHUNK_TEXT` (passed as `chunkTextCsv`; `str(None)` is the
literal key "None"). -/
def predictFinalE (meta : List String) (dense spIndices spValues : List ℕ)
    (oracle : ℕ → List Point × List Point) (chunkTextCsv : List (String × String)) :
    Except String (List (String × ℚ) × DebugFinal) :=
  let N := meta.length
  match finalChunkLoop meta dense spIndices spValues oracle (List.range N) emptyAccF with
  | Except.error e => Except.error e
  | Except.ok st =>
    let finalScore := st.score.map (fun e =>
      let bonus := 1 + CONSISTENCY_BONUS * (((alistGetD st.chunks e.1 []).length : ℚ) - 1)
      (e.1, e.2 * bonus))
    let siteScore := finalScore.foldl (fun m e =>
      match alistGet st.site e.1 with
      | some site => alistSet m site (alistGetD m site 0.0 + e.2)
      | none => m) []
    let evidence := finalScore.foldl (fun m e =>
      match alistGet st.site e.1 with
      | none => m
      | some site =>
        let pl := alistGetD st.payload e.1 emptyPayload
        let raw := pl.chunk_id_raw
        let text := alistGetD chunkTextCsv (raw.getD "None") ""
        let item : EvidenceItem :=
          { case_id := e.1, score := e.2, sect := pl.sect,
            snippet := snippetOf text, chunk_id_raw := raw }
        alistSet m site (alistGetD m site [] ++ [item])) []
    let evidence := evidence.map (fun e =>
      (e.1, (sortDescBy (fun d => d.score) e.2).take MAX_EVIDENCE_PER_SITE))
    let total := sumValues siteScore
    let pct := if total ≠ 0 then siteScore.map (fun e => (e.1, e.2 / total * 100.0)) else []
    Except.ok (pct, { sorted_sites := sortDesc pct, evidence := evidence, n_input_chunks := N })

-- ============================================================
-- Generic lemmas: stable descending sort, alist maps
-- ============================================================

theorem insertDescBy_perm {α : Type} (key : α → ℚ) (x : α) (l : List α) :
    (insertDescBy key x l).Perm (x :: l) := by
  induction l with
  | nil => exact List.Perm.refl _
  | cons y t ih =>
    rw [insertDescBy]
    by_cases h : key x ≤ key y
    · rw [if_pos h]
      exact (ih.cons y).trans (List.Perm.swap x y t)
    · rw [if_neg h]

theorem sortDescBy_fold_perm {α : Type} (key : α → ℚ) :
    ∀ (l acc : List α), (l.foldl (fun a x => insertDescBy key x a) acc).Perm (acc ++ l) := by
  intro l
  induction l with
  | nil => intro acc; simp
  | cons x t ih =>
    intro acc
    have h1 := ih (insertDescBy key x acc)
    have h2 : (insertDescBy key x acc ++ t).Perm ((x :: acc) ++ t) :=
      (insertDescBy_perm key x acc).append_right t
    have h3 : ((x :: acc) ++ t).Perm (acc ++ x :: t) := by
      simpa using List.perm_middle.symm
    simpa using (h1.trans h2).trans h3

theorem sortDescBy_perm {α : Type} (key : α → ℚ) (l : List α) :
    (sortDescBy key l).Perm l := by
  simpa using sortDescBy_fold_perm key l []

theorem mem_sortDescBy {α : Type} (key : α → ℚ) (l : List α) (x : α) :
    x ∈ sortDescBy key l ↔ x ∈ l :=
  (sortDescBy_perm key l).mem_iff

theorem insertDescBy_sorted {α : Type} (key : α → ℚ) (x : α) (l : List α)
    (h : l.Sorted (fun a b => key b ≤ key a)) :
    (insertDescBy key x l).Sorted (fun a b => key b ≤ key a) := by
  induction l with
  | nil => simp [insertDescBy]
  | cons y t ih =>
    rw [List.sorted_cons] at h
    rw [insertDescBy]
    by_cases hxy : key x ≤ key y
    · rw [if_pos hxy, List.sorted_cons]
      refine ⟨fun z hz => ?_, ih h.2⟩
      rcases List.mem_cons.mp ((insertDescBy_perm key x t).mem_iff.mp hz) with hz | hz
      · cases hz; exact hxy
      · exact h.1 z hz
    · rw [if_neg hxy, List.sorted_cons]
      refine ⟨fun z hz => ?_, List.sorted_cons.mpr h⟩
      rcases List.mem_cons.mp hz with hz | hz
      · cases hz; exact le_of_not_le hxy
      · exact (h.1 z hz).trans (le_of_not_le hxy)

theorem sortDescBy_sorted {α : Type} (key : α → ℚ) (l : List α) :
    (sortDescBy key l).Sorted (fun a b => key b ≤ key a) := by
  have main : ∀ (l acc : List α), acc.Sorted (fun a b => key b ≤ key a) →
      (l.foldl (fun a x => insertDescBy key x a) acc).Sorted (fun a b => key b ≤ key a) := by
    intro l
    induction l with
    | nil => intro acc h; simpa using h
    | cons x t ih =>
      intro acc h
      exact ih (insertDescBy key x acc) (insertDescBy_sorted key x acc h)
  exact main l [] (by simp)

theorem alistKeys_map_values {κ ν μ : Type} (l : List (κ × ν)) (f : κ → ν → μ) :
    alistKeys (l.map (fun e => (e.1, f e.1 e.2))) = alistKeys l := by
  induction l with
  | nil => rfl
  | cons e t ih => simp [alistKeys]

theorem alistGet_map_values {κ ν μ : Type} [BEq κ] [LawfulBEq κ]
    (l : List (κ × ν)) (f : κ → ν → μ) (k : κ) :
    alistGet (l.map (fun e => (e.1, f e.1 e.2))) k = (alistGet l k).map (f k) := by
  induction l with
  | nil => rfl
  | cons e t ih =>
    rw [List.map_cons, alistGet_cons, alistGet_cons]
    by_cases h : e.1 = k
    · subst h
      simp
    · rw [if_neg (by simpa using h), if_neg (by simpa using h), ih]

theorem alistSet_forall {κ ν : Type} [BEq κ] [LawfulBEq κ] {P : κ × ν → Prop}
    {l : List (κ × ν)} {k : κ} {v : ν}
    (hl : ∀ e ∈ l, P e) (hv : P (k, v)) : ∀ e ∈ alistSet l k v, P e := by
  induction l with
  | nil => simpa [alistSet_nil] using hv
  | cons y t ih =>
    rw [alistSet_cons]
    by_cases h : y.1 = k
    · rw [if_pos (by simpa using h)]
      intro e he
      rcases List.mem_cons.mp he with he | he
      · cases he; exact hv
      · exact hl e (List.mem_cons_of_mem _ he)
    · rw [if_neg (by simpa using h)]
      intro e he
      rcases List.mem_cons.mp he with he | he
      · cases he; exact hl y (List.mem_cons_self _ _)
      · exact ih (fun e he2 => hl e (List.mem_cons_of_mem _ he2)) e he

theorem mem_keys_alistSet {κ ν : Type} [BEq κ] [LawfulBEq κ]
    (l : List (κ × ν)) (k : κ) (v : ν) (x : κ) :
    x ∈ alistKeys (alistSet l k v) ↔ x ∈ alistKeys l ∨ x = k := by
  by_cases hmem : k ∈ alistKeys l
  · rw [alistKeys_set l k v hmem]
    constructor
    · exact Or.inl
    · rintro (h | rfl)
      · exact h
      · exact hmem
  · rw [alistKeys_set_not_mem l k v hmem]
    simp

theorem alistGet_set_isSome {κ ν : Type} [BEq κ] [LawfulBEq κ]
    (l : List (κ × ν)) (k k' : κ) (v : ν) (h : (alistGet l k').isSome) :
    (alistGet (alistSet l k v) k').isSome := by
  by_cases hk : k = k'
  · subst hk; rw [alistGet_set_self]; rfl
  · rwa [alistGet_set_ne l k k' v hk]

-- ============================================================
-- C7: clinical quality boost
-- ============================================================

/-- The section-type base multiplier of `clinical_quality_boost` (the
`if/elif` at lines 154-157 of `search.py`). -/
def sectionTypeBase (payload : Payload) : ℚ :=
  let sec := strUpper (payload.sect.getD "")
  if sec = "IHC" ∨ sec = "DIAGNOSIS" ∨ sec = "SYNOPTIC" then 1.15
  else if sec = "GROSS" ∨ sec = "MICRO" ∨ sec = "SPECIMEN" then 0.90
  else 1.0

/-- `generic_hits` at line 160 of `search.py`. -/
def generic_hits (payload : Payload) : ℕ :=
  countPatterns GENERIC_PATTERNS (strLower (payload.chunk_text.getD ""))

/-- `strong_hits` at line 164 of `search.py`. -/
def strong_hits (payload : Payload) : ℕ :=
  countPatterns STRONG_PATTERNS (strLower (payload.chunk_text.getD ""))

/-- C7: the quality multiplier starts at 1.0, is multiplied by 1.15 for a best
payload section in {IHC, DIAGNOSIS, SYNOPTIC} and by 0.90 for one in
{GROSS, MICRO, SPECIMEN}, then by `0.92^g` for `g` generic-pattern matches and
`1.06^s` for `s` biomarker-token matches; with 2 generic and 0 biomarker
matches the factor relative to the section-type base is exactly
`0.92^2 = 0.8464`. -/
theorem claim_C7_quality_boost (payload : Payload) :
    clinical_quality_boost payload =
      sectionTypeBase payload * (0.92 : ℚ) ^ generic_hits payload
        * (1.06 : ℚ) ^ strong_hits payload
    ∧ (strUpper (payload.sect.getD "") = "IHC" → sectionTypeBase payload = 1.15)
    ∧ (strUpper (payload.sect.getD "") = "GROSS" → sectionTypeBase payload = 0.90)
    ∧ (generic_hits payload = 2 → strong_hits payload = 0 →
        clinical_quality_boost payload = sectionTypeBase payload * 0.8464) := by
  refine ⟨?_, ?_, ?_, ?_⟩
  · rw [clinical_quality_boost, sectionTypeBase, generic_hits, strong_hits]
    split_ifs <;> ring
  · intro h
    rw [sectionTypeBase]
    simp only [h]
    rw [if_pos (by decide)]
  · intro h
    rw [sectionTypeBase]
    simp only [h]
    rw [if_neg (by decide), if_pos (by decide)]
  · intro hg hs
    rw [clinical_quality_boost, sectionTypeBase, generic_hits, strong_hits] at *
    rw [hg, hs]
    split_ifs <;> ring_nf

/-- Witness for C7 at concrete payloads: an IHC snippet containing the generic
patterns "tumor size" and "specimen received" and no biomarker token, and a
GROSS payload for the weak-section base. -/
theorem claim_C7_quality_boost_witness :
    generic_hits { primary_site := some "lung", case_id := some "c1", sect := some "IHC",
                   chunk_text := some "tumor size 3 cm. specimen received.",
                   chunk_id_raw := none } = 2
    ∧ strong_hits { primary_site := some "lung", case_id := some "c1", sect := some "IHC",
                    chunk_text := some "tumor size 3 cm. specimen received.",
                    chunk_id_raw := none } = 0
    ∧ sectionTypeBase { primary_site := some "lung", case_id := some "c1",
                        sect := some "IHC",
                        chunk_text := some "tumor size 3 cm. specimen received.",
                        chunk_id_raw := none } = 1.15
    ∧ sectionTypeBase { primary_site := some "lung", case_id := some "c1",
                        sect := some "GROSS", chunk_text := some "",
                        chunk_id_raw := none } = 0.90
    ∧ clinical_quality_boost { primary_site := some "lung", case_id := some "c1",
                               sect := some "IHC",
                               chunk_text := some "tumor size 3 cm. specimen received.",
                               chunk_id_raw := none } =
        sectionTypeBase { primary_site := some "lung", case_id := some "c1",
                          sect := some "IHC",
                          chunk_text := some "tumor size 3 cm. specimen received.",
                          chunk_id_raw := none } * 0.8464 :=
  ⟨by decide, by decide,
   (claim_C7_quality_boost _).2.1 (by decide),
   (claim_C7_quality_boost _).2.2.1 (by decide),
   (claim_C7_quality_boost _).2.2.2 (by decide) (by decide)⟩

-- ============================================================
-- C6: consistency bonus
-- ============================================================

/-- C6: each case final score is its summed per-chunk best contributions times
the consistency bonus `1 + 0.20 * max(0, support - 1)` (times the quality
factor of C7); the bonus is 1.0 at support 1, 1.40 at support 3, and is
monotone non-decreasing in the support count. -/
theorem claim_C6_consistency_bonus (acc : CaseAcc) (cid : String) :
    alistGet (case_final_score acc) cid =
      (alistGet acc.total cid).map (fun base =>
        base * bonusOf (alistGetD acc.support cid []).length
          * clinical_quality_boost (alistGetD acc.bestPayload cid emptyPayload))
    ∧ bonusOf 1 = 1.0
    ∧ bonusOf 3 = 1.40
    ∧ (∀ s1 s2 : ℕ, s1 ≤ s2 → bonusOf s1 ≤ bonusOf s2) := by
  refine ⟨?_, ?_, ?_, ?_⟩
  · rw [case_final_score]
    exact alistGet_map_values acc.total
      (fun cid2 base => base * bonusOf (alistGetD acc.support cid2 []).length
        * clinical_quality_boost (alistGetD acc.bestPayload cid2 emptyPayload)) cid
  · rw [bonusOf, CONSISTENCY_BONUS]
    norm_num
  · rw [bonusOf, CONSISTENCY_BONUS]
    norm_num
  · intro s1 s2 h
    rw [bonusOf, bonusOf, CONSISTENCY_BONUS]
    have h1 : (max 0 ((s1 : ℤ) - 1) : ℤ) ≤ max 0 ((s2 : ℤ) - 1) := by
      apply max_le_max le_rfl
      omega
    have h2 : ((max 0 ((s1 : ℤ) - 1) : ℤ) : ℚ) ≤ ((max 0 ((s2 : ℤ) - 1) : ℤ) : ℚ) := by
      exact_mod_cast h1
    nlinarith [h2]

/-- Witness for C6: a one-entry accumulator, and the bonus monotonicity
discharged at supports 1 and 3. -/
theorem claim_C6_consistency_bonus_witness :
    (1 : ℕ) ≤ 3 ∧ bonusOf 1 ≤ bonusOf 3 :=
  ⟨by norm_num, (claim_C6_consistency_bonus emptyAcc "c").2.2.2 1 3 (by norm_num)⟩

-- ============================================================
-- C1: normalization to percentages
-- ============================================================

theorem sumValues_map_scale (l : List (String × ℚ)) (T : ℚ) :
    sumValues (l.map (fun e => (e.1, e.2 / T * 100.0))) = sumValues l / T * 100.0 := by
  induction l with
  | nil => simp [sumValues]
  | cons e t ih =>
    simp only [sumValues, List.map_cons, List.sum_cons] at ih ⊢
    rw [ih]
    ring

theorem chunkBatch_empty (c : RetrievedChunk) (h1 : c.densePts = [])
    (h2 : c.sparsePts = []) : chunkBatch c = [] := by
  obtain ⟨sec, d, s⟩ := c
  simp only at h1 h2
  subst h1
  subst h2
  rfl

theorem foldl_processBatch_all_empty :
    ∀ (l : List (ℕ × List (String × ℚ × Payload))) (acc : CaseAcc),
      (∀ ib ∈ l, ib.2 = []) → l.foldl processBatch acc = acc := by
  intro l
  induction l with
  | nil => intro acc _; rfl
  | cons x t ih =>
    intro acc h
    have hx : x.2 = [] := h x (List.mem_cons_self _ _)
    have hb : processBatch acc x = acc := by
      rw [processBatch, hx]
      rfl
    rw [List.foldl_cons, hb]
    exact ih acc (fun ib hib => h ib (List.mem_cons_of_mem _ hib))

theorem postAggregate_emptyAcc (sel : List EvidenceItem → List EvidenceItem) (n : ℕ) :
    (postAggregateWith sel n emptyAcc).1 = [] := by
  simp [postAggregateWith, case_final_score, site_scores_pre, evidenceRaw,
    evidence_by_site_with, site_strong_counts, calibrate, alistKeys, normalizePct,
    sumValues, emptyAcc]

/-- C1: the returned probability map assigns each site
`site_score / total * 100` and its values sum to exactly 100 whenever the
post-calibration total is positive, and is the empty mapping when the total is
zero — in particular when every input chunk retrieves no hits at all (and no
error is raised: the function is total). -/
theorem claim_C1_normalization (chunks : List RetrievedChunk) :
    ((predictOk chunks).1 =
      if 0 < sumValues (predictOk chunks).2.site_scores then
        (predictOk chunks).2.site_scores.map
          (fun e => (e.1, e.2 / sumValues (predictOk chunks).2.site_scores * 100.0))
      else [])
    ∧ sumValues (predictOk chunks).1 =
        (if 0 < sumValues (predictOk chunks).2.site_scores then 100 else 0)
    ∧ ((∀ c ∈ chunks, c.densePts = [] ∧ c.sparsePts = []) → (predictOk chunks).1 = []) := by
  refine ⟨rfl, ?_, ?_⟩
  · by_cases h : 0 < sumValues (predictOk chunks).2.site_scores
    · rw [if_pos h]
      have h1 : (predictOk chunks).1 =
          (predictOk chunks).2.site_scores.map
            (fun e => (e.1, e.2 / sumValues (predictOk chunks).2.site_scores * 100.0)) := by
        have h0 : (predictOk chunks).1 =
            if 0 < sumValues (predictOk chunks).2.site_scores then
              (predictOk chunks).2.site_scores.map
                (fun e => (e.1, e.2 / sumValues (predictOk chunks).2.site_scores * 100.0))
            else [] := rfl
        rw [h0, if_pos h]
      rw [h1, sumValues_map_scale, div_self (ne_of_gt h)]
      norm_num
    · rw [if_neg h]
      have h1 : (predictOk chunks).1 = [] := by
        have h0 : (predictOk chunks).1 =
            if 0 < sumValues (predictOk chunks).2.site_scores then
              (predictOk chunks).2.site_scores.map
                (fun e => (e.1, e.2 / sumValues (predictOk chunks).2.site_scores * 100.0))
            else [] := rfl
        rw [h0, if_neg h]
      rw [h1]
      rfl
  · intro h
    have hb : ∀ ib ∈ enumBatches chunks, ib.2 = [] := by
      intro ib hib
      rw [enumBatches] at hib
      rcases List.mem_map.mp hib with ⟨ia, hia, rfl⟩
      have hc : ia.2 ∈ chunks := List.snd_mem_of_mem_enum hia
      exact chunkBatch_empty ia.2 (h ia.2 hc).1 (h ia.2 hc).2
    show (postAggregateWith evSelect_code chunks.length (aggChunks (enumBatches chunks))).1 = []
    rw [aggChunks, foldl_processBatch_all_empty _ _ hb, postAggregate_emptyAcc]

/-- Witness for C1: a single input chunk with zero retrieved hits yields the
empty probability map. -/
theorem claim_C1_normalization_witness :
    (∀ c ∈ [({ sect := "GENERAL", densePts := [], sparsePts := [] } : RetrievedChunk)],
      c.densePts = [] ∧ c.sparsePts = [])
    ∧ (predictOk [{ sect := "GENERAL", densePts := [], sparsePts := [] }]).1 = [] := by
  have h : ∀ c ∈ [({ sect := "GENERAL", densePts := [], sparsePts := [] } : RetrievedChunk)],
      c.densePts = [] ∧ c.sparsePts = [] := by
    intro c hc
    rw [List.mem_singleton] at hc
    subst hc
    exact ⟨rfl, rfl⟩
  exact ⟨h, (claim_C1_normalization _).2.2 h⟩

-- ============================================================
-- C8: strong-evidence calibration
-- ============================================================

/-- `case_total_score` / `case_supported_by_chunks` / ... after the chunk loop. -/
def predictAcc (chunks : List RetrievedChunk) : CaseAcc :=
  aggChunks (enumBatches chunks)

/-- The `case_final_score` dict of a run. -/
def predictCaseFinal (chunks : List RetrievedChunk) : List (String × ℚ) :=
  case_final_score (predictAcc chunks)

/-- The pre-calibration `site_scores` dict of a run. -/
def predictSitesPre (chunks : List RetrievedChunk) : List (String × ℚ) :=
  site_scores_pre (predictAcc chunks) (predictCaseFinal chunks)

/-- The truncated `evidence_by_site` dict of a run. -/
def predictEvidence (chunks : List RetrievedChunk) : List (String × List EvidenceItem) :=
  evidence_by_site_with evSelect_code (predictAcc chunks) (predictCaseFinal chunks)

/-- The `site_strong_counts` dict of a run. -/
def predictStrong (chunks : List RetrievedChunk) : List (String × ℕ) :=
  site_strong_counts (predictEvidence chunks)

/-- The post-calibration `site_scores` dict of a run. -/
def predictSitesCal (chunks : List RetrievedChunk) : List (String × ℚ) :=
  calibrate (predictSitesPre chunks) (predictStrong chunks)

theorem calibrate_fold_get (strong : List (String × ℕ)) :
    ∀ (ks : List String) (m : List (String × ℚ)) (site : String),
      ks.Nodup → (∀ k ∈ ks, k ∈ alistKeys m) →
      alistGet (ks.foldl (fun m2 s =>
          if alistGetD strong s 0 < 2 then alistSet m2 s (alistGetD m2 s 0.0 * 0.75) else m2) m)
        site =
        if site ∈ ks ∧ alistGetD strong site 0 < 2
        then (alistGet m site).map (fun v => v * 0.75)
        else alistGet m site := by
  intro ks
  induction ks with
  | nil => intro m site _ _; simp
  | cons k t ih =>
    intro m site hnd hks
    rw [List.foldl_cons]
    have hkm : k ∈ alistKeys m := hks k (List.mem_cons_self _ _)
    by_cases hP : alistGetD strong k 0 < 2
    · rw [if_pos hP]
      have hkeys : alistKeys (alistSet m k (alistGetD m k 0.0 * 0.75)) = alistKeys m :=
        alistKeys_set m k _ hkm
      have hks2 : ∀ x ∈ t, x ∈ alistKeys (alistSet m k (alistGetD m k 0.0 * 0.75)) := by
        intro x hx
        rw [hkeys]
        exact hks x (List.mem_cons_of_mem _ hx)
      rw [ih _ site (List.Nodup.of_cons hnd) hks2]
      by_cases hsk : site = k
      · subst hsk
        have hsnotint : site ∉ t := (List.nodup_cons.mp hnd).1
        rw [if_neg (by simp [hsnotint]), if_pos ⟨List.mem_cons_self _ _, hP⟩]
        obtain ⟨v, hv⟩ := Option.isSome_iff_exists.mp (alistGet_isSome_of_mem_keys hkm)
        rw [alistGet_set_self, hv, alistGetD, hv]
        rfl
      · rw [alistGet_set_ne m k site _ (fun hh => hsk hh.symm)]
        by_cases hst : site ∈ t ∧ alistGetD strong site 0 < 2
        · rw [if_pos hst, if_pos ⟨List.mem_cons_of_mem _ hst.1, hst.2⟩]
        · rw [if_neg hst, if_neg (by
            rintro ⟨hmem, hPs⟩
            rcases List.mem_cons.mp hmem with h1 | h1
            · exact hsk h1
            · exact hst ⟨h1, hPs⟩)]
    · rw [if_neg hP]
      rw [ih _ site (List.Nodup.of_cons hnd) (fun x hx => hks x (List.mem_cons_of_mem _ hx))]
      by_cases hst : site ∈ t ∧ alistGetD strong site 0 < 2
      · rw [if_pos hst, if_pos ⟨List.mem_cons_of_mem _ hst.1, hst.2⟩]
      · rw [if_neg hst]
        by_cases hsk : site = k
        · subst hsk
          rw [if_neg (fun hh => hP hh.2)]
        · rw [if_neg (by
            rintro ⟨hmem, hPs⟩
            rcases List.mem_cons.mp hmem with h1 | h1
            · exact hsk h1
            · exact hst ⟨h1, hPs⟩)]

theorem siteScoresStep_nodup_keys (acc : CaseAcc) (m : List (String × ℚ)) (e : String × ℚ)
    (hm : (alistKeys m).Nodup) : (alistKeys (siteScoresStep acc m e)).Nodup := by
  rw [siteScoresStep]
  split
  · split
    · exact hm
    · exact alistKeys_nodup_set _ _ _ hm
  · exact hm

theorem site_scores_pre_nodup_keys (acc : CaseAcc) (caseFinal : List (String × ℚ)) :
    (alistKeys (site_scores_pre acc caseFinal)).Nodup := by
  rw [site_scores_pre]
  have main : ∀ (l : List (String × ℚ)) (m : List (String × ℚ)),
      (alistKeys m).Nodup → (alistKeys (l.foldl (siteScoresStep acc) m)).Nodup := by
    intro l
    induction l with
    | nil => intro m hm; exact hm
    | cons e t ih =>
      intro m hm
      rw [List.foldl_cons]
      exact ih _ (siteScoresStep_nodup_keys acc m e hm)
  exact main caseFinal [] (by simp [alistKeys])

/-- C8: the 0.75 calibration penalty multiplies a site's aggregate score iff
the number of strong-section items in that site's (truncated) evidence pool is
strictly below 2, and it is applied to the site scores after the per-case
scores and evidence pools are fully built (the strong counts are computed from
the final evidence pools) and before normalization to percentages. -/
theorem claim_C8_calibration (chunks : List RetrievedChunk) (site : String) :
    (predictOk chunks).1 = normalizePct (predictSitesCal chunks)
    ∧ (predictOk chunks).2.site_scores = predictSitesCal chunks
    ∧ (predictOk chunks).2.site_strong_counts = predictStrong chunks
    ∧ alistGet (predictSitesCal chunks) site =
        (if alistGetD (predictStrong chunks) site 0 < 2
         then (alistGet (predictSitesPre chunks) site).map (fun v => v * 0.75)
         else alistGet (predictSitesPre chunks) site) := by
  refine ⟨rfl, rfl, rfl, ?_⟩
  have hnd : (alistKeys (predictSitesPre chunks)).Nodup :=
    site_scores_pre_nodup_keys _ _
  have hmain := calibrate_fold_get (predictStrong chunks) (alistKeys (predictSitesPre chunks))
    (predictSitesPre chunks) site hnd (fun k hk => hk)
  rw [predictSitesCal, calibrate, hmain]
  by_cases hmem : site ∈ alistKeys (predictSitesPre chunks)
  · by_cases hP : alistGetD (predictStrong chunks) site 0 < 2
    · rw [if_pos ⟨hmem, hP⟩, if_pos hP]
    · rw [if_neg (fun hh => hP hh.2), if_neg hP]
  · have hnone : alistGet (predictSitesPre chunks) site = none :=
      alistGet_eq_none_of_not_mem hmem
    rw [if_neg (fun hh => hmem hh.1), hnone]
    by_cases hP : alistGetD (predictStrong chunks) site 0 < 2
    · rw [if_pos hP]
      rfl
    · rw [if_neg hP]

-- ============================================================
-- C3: per-chunk case dedup keeps only the maximum contrib
-- ============================================================

/-- The list of `contrib = rrf_score * sec_w` values of all fused hits of one
chunk that carry the given case id (the hits the reduction dedups over). -/
def chunkContribs (fusedIds : List ℕ) (scores : List (ℕ × ℚ)) (payloads : List (ℕ × Payload))
    (secW : ℚ) (cid : String) : List ℚ :=
  fusedIds.filterMap (fun pid =>
    match alistGet payloads pid with
    | none => none
    | some payload =>
      if truthy payload.primary_site && truthy payload.case_id then
        if payload.case_id.getD "" == cid then some (alistGetD scores pid 0.0 * secW)
        else none
      else none)

theorem reduce_fold_getD (scores : List (ℕ × ℚ)) (payloads : List (ℕ × Payload)) (secW : ℚ)
    (cid : String) :
    ∀ (l : List ℕ) (acc : List (String × ℚ) × List (String × Payload)),
      alistGetD (l.foldl (reduceStep scores payloads secW) acc).1 cid 0.0
        = (chunkContribs l scores payloads secW cid).foldl max (alistGetD acc.1 cid 0.0) := by
  intro l
  induction l with
  | nil => intro acc; rfl
  | cons pid rest ih =>
    intro acc
    rw [List.foldl_cons, chunkContribs, List.filterMap_cons]
    cases halist : alistGet payloads pid with
    | none =>
      have hstep : reduceStep scores payloads secW acc pid = acc := by
        rw [reduceStep, halist]
      rw [hstep]
      simp only [halist]
      exact ih acc
    | some payload =>
      by_cases hguard : truthy payload.primary_site && truthy payload.case_id
      · by_cases hcid : payload.case_id.getD "" == cid
        · have hcid2 : payload.case_id.getD "" = cid := by simpa using hcid
          simp only [halist, hguard, hcid, if_true]
          by_cases hlt : alistGetD acc.1 (payload.case_id.getD "") 0.0
              < alistGetD scores pid 0.0 * secW
          · have hstep : reduceStep scores payloads secW acc pid =
                (alistSet acc.1 (payload.case_id.getD "")
                  (alistGetD scores pid 0.0 * secW),
                 alistSet acc.2 (payload.case_id.getD "") payload) := by
              rw [reduceStep, halist]
              simp only [hguard, if_true, hlt, if_pos]
            rw [hstep, ih]
            rw [List.foldl_cons]
            congr 1
            rw [hcid2] at hlt ⊢
            rw [alistGetD, alistGet_set_self, Option.getD_some]
            exact (max_eq_right (le_of_lt hlt)).symm
          · have hstep : reduceStep scores payloads secW acc pid = acc := by
              rw [reduceStep, halist]
              simp only [hguard, if_true, hlt, if_neg, if_false]
            rw [hstep, ih]
            rw [List.foldl_cons]
            congr 1
            rw [hcid2] at hlt
            exact (max_eq_left (le_of_not_lt hlt)).symm
        · have hcid2 : payload.case_id.getD "" ≠ cid := by simpa using hcid
          simp only [halist, hguard, hcid, if_true, if_false, Bool.false_eq_true]
          by_cases hlt : alistGetD acc.1 (payload.case_id.getD "") 0.0
              < alistGetD scores pid 0.0 * secW
          · have hstep : reduceStep scores payloads secW acc pid =
                (alistSet acc.1 (payload.case_id.getD "")
                  (alistGetD scores pid 0.0 * secW),
                 alistSet acc.2 (payload.case_id.getD "") payload) := by
              rw [reduceStep, halist]
              simp only [hguard, if_true, hlt, if_pos]
            rw [hstep]
            have h2 := ih (alistSet acc.1 (payload.case_id.getD "")
                (alistGetD scores pid 0.0 * secW),
              alistSet acc.2 (payload.case_id.getD "") payload)
            dsimp only at h2
            have h3 : alistGetD (alistSet acc.1 (payload.case_id.getD "")
                (alistGetD scores pid 0.0 * secW)) cid 0.0 = alistGetD acc.1 cid 0.0 := by
              rw [alistGetD, alistGetD, alistGet_set_ne _ _ _ _ hcid2]
              rfl
            rw [h3] at h2
            exact h2
          · have hstep : reduceStep scores payloads secW acc pid = acc := by
              rw [reduceStep, halist]
              simp only [hguard, if_true, hlt, if_neg, if_false]
            rw [hstep]
            exact ih acc
      · have hstep : reduceStep scores payloads secW acc pid = acc := by
          rw [reduceStep, halist]
          simp [hguard]
        simp only [halist, hguard, if_false, Bool.false_eq_true]
        rw [hstep]
        exact ih acc

theorem reduce_fold_nodup_keys (scores : List (ℕ × ℚ)) (payloads : List (ℕ × Payload))
    (secW : ℚ) :
    ∀ (l : List ℕ) (acc : List (String × ℚ) × List (String × Payload)),
      (alistKeys acc.1).Nodup →
      (alistKeys (l.foldl (reduceStep scores payloads secW) acc).1).Nodup := by
  intro l
  induction l with
  | nil => intro acc h; exact h
  | cons pid rest ih =>
    intro acc h
    rw [List.foldl_cons]
    apply ih
    rw [reduceStep]
    split
    · exact h
    · split
      · dsimp only
        split
        · exact alistKeys_nodup_set _ _ _ h
        · exact h
      · exact h

theorem chunkBatch_nodup_keys (c : RetrievedChunk) : (alistKeys (chunkBatch c)).Nodup := by
  rw [chunkBatch]
  rw [alistKeys_map_values (chunkTopCases c)
    (fun k v => (v, alistGetD (chunkReduced c).2 k emptyPayload))]
  rw [chunkTopCases]
  have hperm : (sortDesc (chunkReduced c).1).Perm (chunkReduced c).1 := sortDescBy_perm _ _
  have hnd : (alistKeys (sortDesc (chunkReduced c).1)).Nodup := by
    have h2 : (alistKeys (chunkReduced c).1).Nodup := by
      rw [chunkReduced, reduceChunk]
      exact reduce_fold_nodup_keys _ _ _ _ _ (by simp [alistKeys])
    have h3 : (List.map (fun e : String × ℚ => e.1) (chunkReduced c).1).Nodup := h2
    exact ((hperm.map (fun e : String × ℚ => e.1)).nodup_iff).mpr h3
  have htake : alistKeys ((sortDesc (chunkReduced c).1).take MAX_CASES_PER_INPUT_CHUNK)
      = (alistKeys (sortDesc (chunkReduced c).1)).take MAX_CASES_PER_INPUT_CHUNK := by
    rw [alistKeys, alistKeys, List.map_take]
  rw [htake]
  exact hnd.sublist (List.take_sublist _ _)

/-- C3: within one input chunk, the per-case reduction keeps exactly the
maximum `contrib` among all fused hits sharing a case id (hits whose case ids
are distinct corpus chunks dedup to one entry), and the retained per-chunk
batch has pairwise-distinct case ids, so each case adds at most one value to
the running per-request total per chunk. -/
theorem claim_C3_intra_chunk_dedup (fusedIds : List ℕ) (scores : List (ℕ × ℚ))
    (payloads : List (ℕ × Payload)) (secW : ℚ) (cid : String) (c : RetrievedChunk) :
    alistGetD (reduceChunk fusedIds scores payloads secW).1 cid 0.0
      = (chunkContribs fusedIds scores payloads secW cid).foldl max 0.0
    ∧ (alistKeys (reduceChunk fusedIds scores payloads secW).1).Nodup
    ∧ (alistKeys (chunkBatch c)).Nodup := by
  refine ⟨?_, ?_, chunkBatch_nodup_keys c⟩
  · rw [reduceChunk]
    exact reduce_fold_getD scores payloads secW cid fusedIds ([], [])
  · rw [reduceChunk]
    exact reduce_fold_nodup_keys _ _ _ _ _ (by simp [alistKeys])

-- ============================================================
-- C2: RRF fusion formula, sorting, truncation
-- ============================================================

theorem rrfFold_get_not_mem (k : ℕ) :
    ∀ (pts : List Point) (rank : ℕ) (sc : List (ℕ × ℚ)) (pl : List (ℕ × Payload)) (pid : ℕ),
      pid ∉ pts.map Point.id →
      alistGet (rrfFold k pts rank sc pl).1 pid = alistGet sc pid := by
  intro pts
  induction pts with
  | nil => intro rank sc pl pid _; rfl
  | cons p rest ih =>
    intro rank sc pl pid hmem
    simp only [List.map_cons, List.mem_cons] at hmem
    push_neg at hmem
    rw [rrfFold]
    rw [ih _ _ _ pid hmem.2]
    exact alistGet_set_ne sc p.id pid _ (fun h => hmem.1 h.symm)

theorem rrfFold_getD (k : ℕ) :
    ∀ (pts : List Point), (pts.map Point.id).Nodup →
    ∀ (rank : ℕ) (sc : List (ℕ × ℚ)) (pl : List (ℕ × Payload)) (pid : ℕ),
      alistGetD (rrfFold k pts rank sc pl).1 pid 0.0 =
        alistGetD sc pid 0.0 +
          (match (pts.map Point.id).findIdx? (fun x => x == pid) with
           | some j => 1 / ((k : ℚ) + ((rank + j : ℕ) : ℚ) + 1)
           | none => 0) := by
  intro pts
  induction pts with
  | nil =>
    intro _ rank sc pl pid
    simp [rrfFold, List.findIdx?]
  | cons p rest ih =>
    intro hnd rank sc pl pid
    simp only [List.map_cons, List.nodup_cons] at hnd
    rw [rrfFold]
    by_cases hpe : p.id = pid
    · subst hpe
      have hnotmem : p.id ∉ rest.map Point.id := hnd.1
      rw [alistGetD, rrfFold_get_not_mem k rest _ _ _ p.id hnotmem, alistGet_set_self,
        Option.getD_some]
      rw [List.map_cons, List.findIdx?_cons]
      rw [if_pos (by simp)]
      rw [alistGetD]
      push_cast
      ring
    · have hset : alistGetD (alistSet sc p.id
          (alistGetD sc p.id 0.0 + 1 / ((k : ℚ) + (rank : ℚ) + 1))) pid 0.0
          = alistGetD sc pid 0.0 := by
        rw [alistGetD, alistGetD, alistGet_set_ne sc p.id pid _ hpe]
        rfl
      rw [ih hnd.2 (rank + 1) _ _ pid, hset]
      rw [List.map_cons, List.findIdx?_cons, if_neg (by simpa using hpe), List.findIdx?_succ]
      cases hidx : List.findIdx? (fun x => x == pid) (rest.map Point.id) with
      | none => simp
      | some j =>
        simp only [Option.map_some]
        congr 2
        push_cast
        ring

/-- C2: with hit lists carrying pairwise-distinct point ids, the fused score of
an item found at zero-based rank `r` of a list is `1/(RRF_K + r + 1)` with
`RRF_K = 60`, summed over the (up to two) lists containing it and `0` from a
list not containing it; the fused ranking is the score map sorted by score
descending; and the caller keeps `fused_ids[:K_FUSED]` with `K_FUSED = 50`,
hence at most 50 fused candidates per chunk. -/
theorem claim_C2_rrf_fusion (dense_points sparse_points : List Point)
    (hd : (dense_points.map Point.id).Nodup) (hs : (sparse_points.map Point.id).Nodup)
    (pid : ℕ) (c : RetrievedChunk) :
    alistGetD (rrf_fuse dense_points sparse_points RRF_K).2.1 pid 0.0 =
      (match (dense_points.map Point.id).findIdx? (fun x => x == pid) with
       | some r => 1 / ((RRF_K : ℚ) + (r : ℚ) + 1)
       | none => 0)
      + (match (sparse_points.map Point.id).findIdx? (fun x => x == pid) with
         | some r => 1 / ((RRF_K : ℚ) + (r : ℚ) + 1)
         | none => 0)
    ∧ (rrf_fuse dense_points sparse_points RRF_K).1 =
        (sortDesc (rrf_fuse dense_points sparse_points RRF_K).2.1).map (fun e => e.1)
    ∧ (sortDesc (rrf_fuse dense_points sparse_points RRF_K).2.1).Sorted
        (fun a b => b.2 ≤ a.2)
    ∧ chunkFusedTop c = (chunkFused c).1.take K_FUSED
    ∧ (chunkFusedTop c).length ≤ 50
    ∧ RRF_K = 60 ∧ K_FUSED = 50 := by
  refine ⟨?_, rfl, sortDescBy_sorted _ _, rfl, ?_, rfl, rfl⟩
  · have hdense := rrfFold_getD RRF_K dense_points hd 0 [] [] pid
    have hsparse := rrfFold_getD RRF_K sparse_points hs 0
      (rrfFold RRF_K dense_points 0 [] []).1 (rrfFold RRF_K dense_points 0 [] []).2 pid
    have hnil : alistGetD ([] : List (ℕ × ℚ)) pid 0.0 = 0 := by
      show (0.0 : ℚ) = 0
      norm_num
    rw [hnil, zero_add] at hdense
    have hfuse : alistGetD (rrf_fuse dense_points sparse_points RRF_K).2.1 pid 0.0 =
        alistGetD (rrfFold RRF_K sparse_points 0
          (rrfFold RRF_K dense_points 0 [] []).1
          (rrfFold RRF_K dense_points 0 [] []).2).1 pid 0.0 := rfl
    rw [hfuse, hsparse, hdense]
    congr 1
    · cases List.findIdx? (fun x => x == pid) (dense_points.map Point.id) with
      | none => rfl
      | some j => push_cast; ring_nf
    · cases List.findIdx? (fun x => x == pid) (sparse_points.map Point.id) with
      | none => rfl
      | some j => push_cast; ring_nf
  · rw [chunkFusedTop, show K_FUSED = 50 from rfl]
    exact List.length_take_le 50 (chunkFused c).1

/-- Witness for C2 at concrete two-element dense and one-element sparse hit
lists, reading the fused score of the shared point id 7. -/
theorem claim_C2_rrf_fusion_witness :
    ((([⟨5, none⟩, ⟨7, none⟩] : List Point).map Point.id).Nodup)
    ∧ ((([⟨7, none⟩] : List Point).map Point.id).Nodup)
    ∧ alistGetD (rrf_fuse [⟨5, none⟩, ⟨7, none⟩] [⟨7, none⟩] RRF_K).2.1 7 0.0 =
        (match (([⟨5, none⟩, ⟨7, none⟩] : List Point).map Point.id).findIdx?
            (fun x => x == 7) with
         | some r => 1 / ((RRF_K : ℚ) + (r : ℚ) + 1)
         | none => 0)
        + (match (([⟨7, none⟩] : List Point).map Point.id).findIdx? (fun x => x == 7) with
           | some r => 1 / ((RRF_K : ℚ) + (r : ℚ) + 1)
           | none => 0) :=
  ⟨by decide, by decide,
   (claim_C2_rrf_fusion [⟨5, none⟩, ⟨7, none⟩] [⟨7, none⟩] (by decide) (by decide) 7
     ⟨"GENERAL", [], []⟩).1⟩

-- ============================================================
-- C4: order (in)dependence of the cross-chunk aggregation
-- ============================================================

/-- `case_total_score[cid]` read with the defaultdict default. -/
def totalD (acc : CaseAcc) (cid : String) : ℚ := alistGetD acc.total cid 0.0

/-- `case_supported_by_chunks[cid]` as a dedup list. -/
def supportList (acc : CaseAcc) (cid : String) : List ℕ := alistGetD acc.support cid []

/-- `case_best_score[cid]` read with the defaultdict default. -/
def bestD (acc : CaseAcc) (cid : String) : ℚ := alistGetD acc.bestScore cid 0.0

/-- The contribs a batch carries for one case id. -/
def batchContribList (b : List (String × ℚ × Payload)) (cid : String) : List ℚ :=
  (b.filter (fun e => e.1 == cid)).map (fun e => e.2.1)

/-- Whether a batch retains the given case. -/
def batchHits (b : List (String × ℚ × Payload)) (cid : String) : Bool :=
  b.any (fun e => e.1 == cid)

theorem processItem_total_eq (i : ℕ) (acc : CaseAcc) (item : String × ℚ × Payload) :
    (processItem i acc item).total =
      alistSet acc.total item.1 (alistGetD acc.total item.1 0.0 + item.2.1) := by
  rw [processItem]
  by_cases h : alistGetD acc.bestScore item.1 0.0 < item.2.1
  · rw [if_pos h]
  · rw [if_neg h]

theorem processItem_support_eq (i : ℕ) (acc : CaseAcc) (item : String × ℚ × Payload) :
    (processItem i acc item).support =
      alistSet acc.support item.1
        (if i ∈ alistGetD acc.support item.1 [] then alistGetD acc.support item.1 []
         else alistGetD acc.support item.1 [] ++ [i]) := by
  rw [processItem]
  by_cases h : alistGetD acc.bestScore item.1 0.0 < item.2.1
  · rw [if_pos h]
  · rw [if_neg h]

theorem processItem_bestScore_eq (i : ℕ) (acc : CaseAcc) (item : String × ℚ × Payload) :
    (processItem i acc item).bestScore =
      if alistGetD acc.bestScore item.1 0.0 < item.2.1
      then alistSet acc.bestScore item.1 item.2.1 else acc.bestScore := by
  rw [processItem]
  by_cases h : alistGetD acc.bestScore item.1 0.0 < item.2.1
  · rw [if_pos h, if_pos h]
  · rw [if_neg h, if_neg h]

theorem processItem_bestPayload_eq (i : ℕ) (acc : CaseAcc) (item : String × ℚ × Payload) :
    (processItem i acc item).bestPayload =
      if alistGetD acc.bestScore item.1 0.0 < item.2.1
      then alistSet acc.bestPayload item.1 item.2.2 else acc.bestPayload := by
  rw [processItem]
  by_cases h : alistGetD acc.bestScore item.1 0.0 < item.2.1
  · rw [if_pos h, if_pos h]
  · rw [if_neg h, if_neg h]

theorem processItem_site_eq (i : ℕ) (acc : CaseAcc) (item : String × ℚ × Payload) :
    (processItem i acc item).site =
      (match item.2.2.primary_site with
       | some s => if s == "" then acc.site else alistSet acc.site item.1 s
       | none => acc.site) := by
  rw [processItem]
  by_cases h : alistGetD acc.bestScore item.1 0.0 < item.2.1
  · rw [if_pos h]
  · rw [if_neg h]

theorem processItem_totalD (i : ℕ) (acc : CaseAcc) (item : String × ℚ × Payload)
    (cid : String) :
    totalD (processItem i acc item) cid =
      totalD acc cid + (if item.1 == cid then item.2.1 else 0) := by
  rw [totalD, alistGetD, processItem_total_eq]
  by_cases hc : item.1 = cid
  · subst hc
    rw [alistGet_set_self, if_pos (by simp)]
    rfl
  · rw [alistGet_set_ne _ _ _ _ hc, if_neg (by simpa using hc)]
    rw [totalD, alistGetD, add_zero]

theorem processItem_bestD (i : ℕ) (acc : CaseAcc) (item : String × ℚ × Payload)
    (cid : String) :
    bestD (processItem i acc item) cid =
      if item.1 == cid then max (bestD acc cid) item.2.1 else bestD acc cid := by
  rw [bestD, alistGetD, processItem_bestScore_eq]
  by_cases hlt : alistGetD acc.bestScore item.1 0.0 < item.2.1
  · rw [if_pos hlt]
    by_cases hc : item.1 = cid
    · subst hc
      rw [alistGet_set_self, if_pos (by simp), Option.getD_some]
      exact (max_eq_right (le_of_lt hlt)).symm
    · rw [alistGet_set_ne _ _ _ _ hc, if_neg (by simpa using hc)]
      rfl
  · rw [if_neg hlt]
    by_cases hc : item.1 = cid
    · subst hc
      rw [if_pos (by simp)]
      exact (max_eq_left (le_of_not_lt hlt)).symm
    · rw [if_neg (by simpa using hc)]
      rfl

theorem processItem_supportList (i : ℕ) (acc : CaseAcc) (item : String × ℚ × Payload)
    (cid : String) :
    supportList (processItem i acc item) cid =
      if item.1 == cid then
        (if i ∈ supportList acc cid then supportList acc cid
         else supportList acc cid ++ [i])
      else supportList acc cid := by
  rw [supportList, alistGetD, processItem_support_eq]
  by_cases hc : item.1 = cid
  · subst hc
    rw [alistGet_set_self, Option.getD_some,
      if_pos (show (item.1 == item.1) = true by simp)]
    rfl
  · rw [alistGet_set_ne _ _ _ _ hc, if_neg (by simpa using hc)]
    rfl

theorem batchContribList_cons (item : String × ℚ × Payload)
    (t : List (String × ℚ × Payload)) (cid : String) :
    batchContribList (item :: t) cid =
      if item.1 == cid then item.2.1 :: batchContribList t cid
      else batchContribList t cid := by
  by_cases hc : item.1 == cid
  · simp [batchContribList, List.filter_cons, hc]
  · simp [batchContribList, List.filter_cons, hc]

theorem batchHits_cons (item : String × ℚ × Payload)
    (t : List (String × ℚ × Payload)) (cid : String) :
    batchHits (item :: t) cid = ((item.1 == cid) || batchHits t cid) := by
  simp [batchHits]

theorem processBatch_totalD (i : ℕ) (b : List (String × ℚ × Payload)) :
    ∀ (acc : CaseAcc) (cid : String),
      totalD (processBatch acc (i, b)) cid = totalD acc cid + (batchContribList b cid).sum := by
  induction b with
  | nil => intro acc cid; simp [processBatch, batchContribList]
  | cons item t ih =>
    intro acc cid
    have hstep : processBatch acc (i, item :: t) = processBatch (processItem i acc item) (i, t) := rfl
    rw [hstep, ih, processItem_totalD, batchContribList_cons]
    by_cases hc : item.1 == cid
    · rw [if_pos hc, if_pos hc, List.sum_cons]
      ring
    · rw [if_neg (by simpa using hc), if_neg (by simpa using hc), add_zero]

theorem processBatch_bestD (i : ℕ) (b : List (String × ℚ × Payload)) :
    ∀ (acc : CaseAcc) (cid : String),
      bestD (processBatch acc (i, b)) cid = (batchContribList b cid).foldl max (bestD acc cid) := by
  induction b with
  | nil => intro acc cid; simp [processBatch, batchContribList]
  | cons item t ih =>
    intro acc cid
    have hstep : processBatch acc (i, item :: t) = processBatch (processItem i acc item) (i, t) := rfl
    rw [hstep, ih, processItem_bestD, batchContribList_cons]
    by_cases hc : item.1 == cid
    · rw [if_pos hc, if_pos hc, List.foldl_cons]
    · rw [if_neg (by simpa using hc), if_neg (by simpa using hc)]

theorem processBatch_support_mem (i : ℕ) (b : List (String × ℚ × Payload)) :
    ∀ (acc : CaseAcc) (cid : String) (x : ℕ),
      x ∈ supportList (processBatch acc (i, b)) cid ↔
        x ∈ supportList acc cid ∨ (batchHits b cid ∧ x = i) := by
  induction b with
  | nil =>
    intro acc cid x
    simp [processBatch, batchHits]
  | cons item t ih =>
    intro acc cid x
    have hstep : processBatch acc (i, item :: t) = processBatch (processItem i acc item) (i, t) := rfl
    rw [hstep, ih, processItem_supportList, batchHits_cons]
    by_cases hc : item.1 == cid
    · rw [if_pos hc, hc]
      by_cases hmem : i ∈ supportList acc cid
      · rw [if_pos hmem]
        simp only [Bool.true_or, true_and]
        constructor
        · rintro (h | h)
          · exact Or.inl h
          · exact Or.inr h.2
        · rintro (h | rfl)
          · exact Or.inl h
          · exact Or.inl hmem
      · rw [if_neg hmem]
        simp only [Bool.true_or, true_and, List.mem_append, List.mem_singleton]
        constructor
        · rintro ((h | h) | h)
          · exact Or.inl h
          · exact Or.inr h
          · exact Or.inr h.2
        · rintro (h | rfl)
          · exact Or.inl (Or.inl h)
          · exact Or.inl (Or.inr rfl)
    · rw [if_neg (by simpa using hc)]
      have hb : (item.1 == cid) = false := by simpa using hc
      rw [hb, Bool.false_or]

theorem addIdx_nodup (s : List ℕ) (i : ℕ) (h : s.Nodup) :
    (if i ∈ s then s else s ++ [i]).Nodup := by
  by_cases hm : i ∈ s
  · rwa [if_pos hm]
  · rw [if_neg hm]
    simpa [List.nodup_append] using ⟨h, hm⟩

theorem processBatch_support_nodup (i : ℕ) (b : List (String × ℚ × Payload)) :
    ∀ (acc : CaseAcc) (cid : String), (supportList acc cid).Nodup →
      (supportList (processBatch acc (i, b)) cid).Nodup := by
  induction b with
  | nil => intro acc cid h; exact h
  | cons item t ih =>
    intro acc cid h
    have hstep : processBatch acc (i, item :: t) = processBatch (processItem i acc item) (i, t) := rfl
    rw [hstep]
    apply ih
    rw [processItem_supportList]
    by_cases hc : item.1 == cid
    · rw [if_pos hc]
      exact addIdx_nodup _ _ h
    · rwa [if_neg (by simpa using hc)]

theorem aggfold_totalD :
    ∀ (l : List (ℕ × List (String × ℚ × Payload))) (acc : CaseAcc) (cid : String),
      totalD (l.foldl processBatch acc) cid =
        totalD acc cid + (l.map (fun ib => (batchContribList ib.2 cid).sum)).sum := by
  intro l
  induction l with
  | nil => intro acc cid; simp
  | cons ib t ih =>
    intro acc cid
    rw [List.foldl_cons, ih, List.map_cons, List.sum_cons]
    rw [show processBatch acc ib = processBatch acc (ib.1, ib.2) from rfl, processBatch_totalD]
    ring

theorem aggfold_bestD :
    ∀ (l : List (ℕ × List (String × ℚ × Payload))) (acc : CaseAcc) (cid : String),
      bestD (l.foldl processBatch acc) cid =
        ((l.map (fun ib => batchContribList ib.2 cid)).flatten).foldl max (bestD acc cid) := by
  intro l
  induction l with
  | nil => intro acc cid; simp
  | cons ib t ih =>
    intro acc cid
    rw [List.foldl_cons, ih, List.map_cons, List.flatten_cons, List.foldl_append]
    rw [show processBatch acc ib = processBatch acc (ib.1, ib.2) from rfl, processBatch_bestD]

theorem aggfold_support_mem :
    ∀ (l : List (ℕ × List (String × ℚ × Payload))) (acc : CaseAcc) (cid : String) (x : ℕ),
      x ∈ supportList (l.foldl processBatch acc) cid ↔
        x ∈ supportList acc cid ∨ ∃ ib ∈ l, batchHits ib.2 cid ∧ x = ib.1 := by
  intro l
  induction l with
  | nil => intro acc cid x; simp
  | cons ib t ih =>
    intro acc cid x
    rw [List.foldl_cons, ih]
    rw [show processBatch acc ib = processBatch acc (ib.1, ib.2) from rfl,
      processBatch_support_mem]
    constructor
    · rintro ((h | h) | ⟨b2, hb2, hb3⟩)
      · exact Or.inl h
      · exact Or.inr ⟨ib, List.mem_cons_self _ _, h.1, h.2⟩
      · exact Or.inr ⟨b2, List.mem_cons_of_mem _ hb2, hb3⟩
    · rintro (h | ⟨b2, hb2, hb3⟩)
      · exact Or.inl (Or.inl h)
      · rcases List.mem_cons.mp hb2 with rfl | hmem
        · exact Or.inl (Or.inr ⟨hb3.1, hb3.2⟩)
        · exact Or.inr ⟨b2, hmem, hb3⟩

theorem aggfold_support_nodup :
    ∀ (l : List (ℕ × List (String × ℚ × Payload))) (acc : CaseAcc) (cid : String),
      (supportList acc cid).Nodup → (supportList (l.foldl processBatch acc) cid).Nodup := by
  intro l
  induction l with
  | nil => intro acc cid h; exact h
  | cons ib t ih =>
    intro acc cid h
    rw [List.foldl_cons]
    apply ih
    rw [show processBatch acc ib = processBatch acc (ib.1, ib.2) from rfl]
    exact processBatch_support_nodup _ _ _ _ h

theorem foldl_max_perm {l1 l2 : List ℚ} (h : l1.Perm l2) :
    ∀ a : ℚ, l1.foldl max a = l2.foldl max a := by
  induction h with
  | nil => intro a; rfl
  | cons x _ ih => intro a; rw [List.foldl_cons, List.foldl_cons, ih]
  | swap x y l =>
    intro a
    simp only [List.foldl_cons]
    congr 1
    simp [max_assoc, max_comm, max_left_comm]
  | trans _ _ ih1 ih2 => intro a; rw [ih1, ih2]

/-- C4 (amended): for a fixed set of per-chunk results, the per-case totals,
support counts and best contribs of the cross-chunk aggregation are invariant
under permutations of the chunk processing order (the merge is a commutative
sum, a set union, and a max).  The best payload — and hence the probability
map — is NOT in general order independent: when two chunks tie on a case best
contrib with different payloads, the first-processed chunk wins (see the
counterexample). -/
theorem claim_C4_order_invariance (l1 l2 : List (ℕ × List (String × ℚ × Payload)))
    (h : l1.Perm l2) (cid : String) :
    totalD (aggChunks l1) cid = totalD (aggChunks l2) cid
    ∧ (supportList (aggChunks l1) cid).length = (supportList (aggChunks l2) cid).length
    ∧ bestD (aggChunks l1) cid = bestD (aggChunks l2) cid := by
  refine ⟨?_, ?_, ?_⟩
  · rw [aggChunks, aggChunks, aggfold_totalD, aggfold_totalD]
    congr 1
    exact (h.map (fun ib => (batchContribList ib.2 cid).sum)).sum_eq
  · have hnd0 : (supportList emptyAcc cid).Nodup := by
      simp [supportList, alistGetD, alistGet, emptyAcc]
    have hnd1 : (supportList (aggChunks l1) cid).Nodup :=
      aggfold_support_nodup l1 emptyAcc cid hnd0
    have hnd2 : (supportList (aggChunks l2) cid).Nodup :=
      aggfold_support_nodup l2 emptyAcc cid hnd0
    have hmem : ∀ x, x ∈ supportList (aggChunks l1) cid ↔
        x ∈ supportList (aggChunks l2) cid := by
      intro x
      rw [aggChunks, aggChunks, aggfold_support_mem, aggfold_support_mem]
      exact or_congr Iff.rfl
        (exists_congr fun ib => and_congr h.mem_iff Iff.rfl)
    exact ((List.perm_ext_iff_of_nodup hnd1 hnd2).mpr hmem).length_eq
  · rw [aggChunks, aggChunks, aggfold_bestD, aggfold_bestD]
    exact foldl_max_perm
      ((h.map (fun ib => batchContribList ib.2 cid)).flatten) _

/-- Witness for C4 (amended): the same case retained by chunks 0 and 1 with
contribs 1 and 2, aggregated in the two orders. -/
theorem claim_C4_order_invariance_witness :
    ([((0 : ℕ), [("c", (1 : ℚ), emptyPayload)]), (1, [("c", (2 : ℚ), emptyPayload)])].Perm
      [(1, [("c", (2 : ℚ), emptyPayload)]), ((0 : ℕ), [("c", (1 : ℚ), emptyPayload)])])
    ∧ totalD (aggChunks
        [((0 : ℕ), [("c", (1 : ℚ), emptyPayload)]), (1, [("c", (2 : ℚ), emptyPayload)])]) "c"
      = totalD (aggChunks
        [(1, [("c", (2 : ℚ), emptyPayload)]), ((0 : ℕ), [("c", (1 : ℚ), emptyPayload)])]) "c" :=
  ⟨List.Perm.swap _ _ [],
   (claim_C4_order_invariance _ _ (List.Perm.swap _ _ []) "c").1⟩

/-- Case `c` of site lung retrieved by chunk 0 with an IHC payload. -/
def plC_IHC : Payload :=
  { primary_site := some "lung", case_id := some "c", sect := some "IHC",
    chunk_text := some "", chunk_id_raw := none }

/-- Case `c` of site lung retrieved by chunk 1 with a GROSS payload and the
same contrib. -/
def plC_GROSS : Payload :=
  { primary_site := some "lung", case_id := some "c", sect := some "GROSS",
    chunk_text := some "", chunk_id_raw := none }

/-- Case `d` of site breast, anchoring the denominator. -/
def plD_IHC : Payload :=
  { primary_site := some "breast", case_id := some "d", sect := some "IHC",
    chunk_text := some "", chunk_id_raw := none }

def c4_chunk0 : RetrievedChunk :=
  { sect := "GENERAL", densePts := [⟨1, some plC_IHC⟩, ⟨3, some plD_IHC⟩], sparsePts := [] }

def c4_chunk1 : RetrievedChunk :=
  { sect := "GENERAL", densePts := [⟨2, some plC_GROSS⟩], sparsePts := [] }

/-- Counterexample to C4 as stated: both chunks give case `c` the same best
contrib `0.7/61` but with different payloads (IHC vs GROSS), so the strict
best-update keeps the first-processed payload; the quality factor (1.15 vs
0.90) then differs and the final probability map depends on the chunk
processing order. -/
theorem claim_C4_counterexample :
    (predictOk [c4_chunk0, c4_chunk1]).1 =
      (postAggregateWith evSelect_code 2
        (aggChunks [(0, chunkBatch c4_chunk0), (1, chunkBatch c4_chunk1)])).1
    ∧ (postAggregateWith evSelect_code 2
        (aggChunks [(0, chunkBatch c4_chunk0), (1, chunkBatch c4_chunk1)])).1
      ≠ (postAggregateWith evSelect_code 2
        (aggChunks [(1, chunkBatch c4_chunk1), (0, chunkBatch c4_chunk0)])).1 := by
  constructor
  · rfl
  · intro heq
    have h1 : (postAggregateWith evSelect_code 2
        (aggChunks [(0, chunkBatch c4_chunk0), (1, chunkBatch c4_chunk1)])).1 =
        [("lung", 74400/1049), ("breast", 30500/1049)] := by
      with_unfolding_all rfl
    have h2 : (postAggregateWith evSelect_code 2
        (aggChunks [(1, chunkBatch c4_chunk1), (0, chunkBatch c4_chunk0)])).1 =
        [("lung", 1339200/20407), ("breast", 701500/20407)] := by
      with_unfolding_all rfl
    rw [h1, h2] at heq
    simp only [List.cons.injEq, Prod.mk.injEq] at heq
    norm_num at heq

-- ============================================================
-- C5: evidence selection and the probability map
-- ============================================================

/-- The probability map under a parameterized per-site evidence selection
(the source uses `evSelect_code`). -/
def predictPctWith (sel : List EvidenceItem → List EvidenceItem)
    (chunks : List RetrievedChunk) : List (String × ℚ) :=
  (predictOkWith sel chunks).1

theorem predictPctWith_eq (sel : List EvidenceItem → List EvidenceItem)
    (chunks : List RetrievedChunk) :
    predictPctWith sel chunks =
      normalizePct (calibrate (predictSitesPre chunks)
        (site_strong_counts
          (evidence_by_site_with sel (predictAcc chunks) (predictCaseFinal chunks)))) := rfl

/-- C5 (amended): evidence selection does feed back into ranking — the
strong-evidence calibration counts strong sections inside the truncated
per-site evidence pools — but only through those per-site strong counts: two
evidence selections producing the same strong counts produce the same
probability map. -/
theorem claim_C5_evidence_influence (sel1 sel2 : List EvidenceItem → List EvidenceItem)
    (chunks : List RetrievedChunk)
    (h : site_strong_counts
          (evidence_by_site_with sel1 (predictAcc chunks) (predictCaseFinal chunks))
        = site_strong_counts
          (evidence_by_site_with sel2 (predictAcc chunks) (predictCaseFinal chunks))) :
    predictPctWith sel1 chunks = predictPctWith sel2 chunks := by
  rw [predictPctWith_eq, predictPctWith_eq, h]

/-- Witness for C5 (amended): the identity selection against itself on a
trivial run. -/
theorem claim_C5_evidence_influence_witness :
    (site_strong_counts
        (evidence_by_site_with (fun l => l) (predictAcc []) (predictCaseFinal []))
      = site_strong_counts
        (evidence_by_site_with (fun l => l) (predictAcc []) (predictCaseFinal [])))
    ∧ predictPctWith (fun l => l) [] = predictPctWith (fun l => l) [] :=
  ⟨rfl, claim_C5_evidence_influence (fun l => l) (fun l => l) [] rfl⟩

/-- A lung GROSS payload with empty text, used at fused ranks 0-5. -/
def c5_gross (n : ℕ) : Point :=
  ⟨n + 1, some { primary_site := some "lung", case_id := some ("L" ++ toString n),
                 sect := some "GROSS", chunk_text := some "", chunk_id_raw := none }⟩

/-- A lung IHC payload whose text holds four generic patterns, pushing its
quality factor (and hence its evidence rank) below the GROSS cases. -/
def c5_ihc (n : ℕ) (pid : ℕ) : Point :=
  ⟨pid, some { primary_site := some "lung", case_id := some ("L" ++ toString n),
               sect := some "IHC",
               chunk_text := some "tumor size. specimen received. tnm. n0.",
               chunk_id_raw := none }⟩

/-- The breast anchor case. -/
def c5_breast : Point :=
  ⟨7, some { primary_site := some "breast", case_id := some "B0", sect := some "IHC",
             chunk_text := some "", chunk_id_raw := none }⟩

/-- One input chunk retrieving 8 lung cases (6 GROSS, then 2 low-quality IHC)
and 1 breast case. -/
def c5_chunk : RetrievedChunk :=
  { sect := "GENERAL",
    densePts := [c5_gross 0, c5_gross 1, c5_gross 2, c5_gross 3, c5_gross 4, c5_gross 5,
                 c5_breast, c5_ihc 6 8, c5_ihc 7 9],
    sparsePts := [] }

set_option maxRecDepth 2000 in
/-- Counterexample to C5 as stated: with the source evidence selection (top 6
by score) the lung pool keeps only the 6 GROSS items (0 strong ⇒ 0.75 penalty
on lung), while keeping the full pool leaves 2 strong IHC items (no penalty),
so the returned probability map depends on how the evidence pool is truncated:
evidence selection is not purely observational. -/
theorem claim_C5_counterexample :
    predictPctWith evSelect_code [c5_chunk] ≠ predictPctWith (fun l => l) [c5_chunk] := by
  intro heq
  have h1 : predictPctWith evSelect_code [c5_chunk] =
      [("lung", 17650598813367286700/204260502421172867),
       ("breast", 2775451428750000000/204260502421172867)] := by
    with_unfolding_all rfl
  have h2 : predictPctWith (fun l => l) [c5_chunk] =
      [("lung", 17650598813367286700/197321873849297867),
       ("breast", 2081588571562500000/197321873849297867)] := by
    with_unfolding_all rfl
  rw [h1, h2] at heq
  simp only [List.cons.injEq, Prod.mk.injEq] at heq
  norm_num at heq

-- ============================================================
-- C9: input alignment precondition
-- ============================================================

/-- C9 (amended, for `search.py`): if the per-position arrays are aligned the
run returns the complete `(probabilities, trace)` pair, and on any length
mismatch the assert raises `Input files misaligned` whatever the retrieval
backend would have answered — i.e. before any retrieval, with no partial
result.  The `search_final.py` variant has no such check (see the
counterexample). -/
theorem claim_C9_alignment (meta : List String) (dense spIndices spValues : List ℕ)
    (oracle : ℕ → List Point × List Point) :
    ((dense.length = meta.length ∧ meta.length = spIndices.length ∧
        spIndices.length = spValues.length) →
      predictE meta dense spIndices spValues oracle =
        Except.ok (predictOk ((List.range meta.length).map (fun i =>
          { sect := meta.getD i "GENERAL", densePts := (oracle i).1,
            sparsePts := (oracle i).2 }))))
    ∧ (¬(dense.length = meta.length ∧ meta.length = spIndices.length ∧
        spIndices.length = spValues.length) →
      predictE meta dense spIndices spValues oracle =
        Except.error "Input files misaligned") := by
  constructor
  · intro h
    rw [predictE]
    rw [if_pos h]
  · intro h
    rw [predictE]
    rw [if_neg h]

/-- A backend returning no hits for every chunk index. -/
def emptyOracle : ℕ → List Point × List Point := fun _ => ([], [])

/-- Witness for C9 (amended): the aligned empty input returns ok, and a
one-row dense array against empty metadata raises, for a concrete backend. -/
theorem claim_C9_alignment_witness :
    (predictE [] [] [] [] emptyOracle =
      Except.ok (predictOk ((List.range ([] : List String).length).map (fun i =>
        { sect := ([] : List String).getD i "GENERAL",
          densePts := (emptyOracle i).1, sparsePts := (emptyOracle i).2 }))))
    ∧ predictE [] [0] [] [] emptyOracle = Except.error "Input files misaligned" :=
  ⟨(claim_C9_alignment [] [] [] [] emptyOracle).1 (by simp),
   (claim_C9_alignment [] [0] [] [] emptyOracle).2 (by simp)⟩

/-- Counterexample to C9 as stated: `search_final.py` performs no alignment
check.  With empty metadata and a one-row dense array (misaligned lengths) it
raises nothing and returns a completed result, because its loop bound is the
metadata length alone. -/
theorem claim_C9_counterexample :
    ¬(List.length ([(0 : ℕ)]) = List.length ([] : List String))
    ∧ predictFinalE [] [0] [] [] emptyOracle [] =
        Except.ok ([], { sorted_sites := [], evidence := [], n_input_chunks := 0 }) := by
  constructor
  · simp
  · with_unfolding_all rfl

-- ============================================================
-- C10: positivity and key-set of the probability map
-- ============================================================

theorem alistGetD_nonneg (l : List (String × ℚ)) (k : String)
    (h : ∀ e ∈ l, 0 < e.2) : 0 ≤ alistGetD l k 0.0 := by
  rw [alistGetD]
  cases hg : alistGet l k with
  | none => norm_num
  | some v =>
    have := h _ (mem_of_alistGet_eq_some hg)
    simpa using le_of_lt this

/-- Invariant carried through the per-chunk reduction: all kept contribs are
positive, all kept payloads have a truthy primary site, and the score and
payload dicts share their key list. -/
theorem reduce_fold_invariant (scores : List (ℕ × ℚ)) (payloads : List (ℕ × Payload))
    (secW : ℚ) :
    ∀ (l : List ℕ) (acc : List (String × ℚ) × List (String × Payload)),
      (∀ e ∈ acc.1, 0 < e.2) → (∀ e2 ∈ acc.2, truthy e2.2.primary_site) →
      alistKeys acc.1 = alistKeys acc.2 →
      (∀ e ∈ (l.foldl (reduceStep scores payloads secW) acc).1, 0 < e.2)
      ∧ (∀ e2 ∈ (l.foldl (reduceStep scores payloads secW) acc).2,
          truthy e2.2.primary_site)
      ∧ alistKeys (l.foldl (reduceStep scores payloads secW) acc).1
          = alistKeys (l.foldl (reduceStep scores payloads secW) acc).2 := by
  intro l
  induction l with
  | nil => intro acc h1 h2 h3; exact ⟨h1, h2, h3⟩
  | cons pid rest ih =>
    intro acc h1 h2 h3
    rw [List.foldl_cons]
    apply ih
    · rw [reduceStep]
      split
      · exact h1
      · split
        · dsimp only
          split
          · rename_i pl heq hguard hlt
            intro e he
            refine alistSet_forall h1 ?_ e he
            have hge := alistGetD_nonneg acc.1 (pl.case_id.getD "") h1
            exact lt_of_le_of_lt hge hlt
          · exact h1
        · exact h1
    · rw [reduceStep]
      split
      · exact h2
      · split
        · dsimp only
          split
          · rename_i pl heq hguard hlt
            intro e2 he2
            refine alistSet_forall h2 ?_ e2 he2
            have := (Bool.and_eq_true _ _).mp hguard
            exact this.1
          · exact h2
        · exact h2
    · rw [reduceStep]
      split
      · exact h3
      · split
        · dsimp only
          split
          · rename_i pl heq hguard hlt
            by_cases hmem : pl.case_id.getD "" ∈ alistKeys acc.1
            · rw [alistKeys_set _ _ _ hmem, alistKeys_set _ _ _ (h3 ▸ hmem), h3]
            · rw [alistKeys_set_not_mem _ _ _ hmem,
                alistKeys_set_not_mem _ _ _ (fun hm => hmem (h3 ▸ hm)), h3]
          · exact h3
        · exact h3

theorem chunkBatch_invariant (c : RetrievedChunk) :
    ∀ item ∈ chunkBatch c, 0 < item.2.1 ∧ truthy item.2.2.primary_site := by
  intro item hitem
  have hinv := reduce_fold_invariant (chunkFused c).2.1 (chunkFused c).2.2
    (w_section c.sect) (chunkFusedTop c) ([], [])
    (by intro e he; simp at he) (by intro e he; simp at he) rfl
  have hred : (chunkReduced c).1 = ((chunkFusedTop c).foldl
      (reduceStep (chunkFused c).2.1 (chunkFused c).2.2 (w_section c.sect)) ([], [])).1 := rfl
  rcases List.mem_map.mp hitem with ⟨e0, he0, rfl⟩
  have he0red : e0 ∈ (chunkReduced c).1 := by
    have hperm := sortDescBy_perm (fun e : String × ℚ => e.2) (chunkReduced c).1
    exact hperm.mem_iff.mp (List.mem_of_mem_take he0)
  constructor
  · exact hinv.1 e0 he0red
  · have hkey : e0.1 ∈ alistKeys (chunkReduced c).2 := by
      rw [show alistKeys (chunkReduced c).2 =
        alistKeys (chunkReduced c).1 from (hinv.2.2).symm]
      exact mem_alistKeys_of_mem he0red
    obtain ⟨pl, hpl⟩ := Option.isSome_iff_exists.mp (alistGet_isSome_of_mem_keys hkey)
    have hmem2 : (e0.1, pl) ∈ (chunkReduced c).2 := mem_of_alistGet_eq_some hpl
    have htr := hinv.2.1 _ hmem2
    simpa [alistGetD, hpl] using htr

/-- Invariant of the per-request accumulator: accumulated totals are positive
and every retained case has a nonempty primary site recorded. -/
def AccInv (acc : CaseAcc) : Prop :=
  (∀ e ∈ acc.total, 0 < e.2) ∧
  (∀ cid ∈ alistKeys acc.total, ∃ s, alistGet acc.site cid = some s ∧ s ≠ "")

theorem processItem_inv (i : ℕ) (acc : CaseAcc) (item : String × ℚ × Payload)
    (hpos : 0 < item.2.1) (htr : truthy item.2.2.primary_site)
    (hinv : AccInv acc) : AccInv (processItem i acc item) := by
  obtain ⟨s0, hs0, hs0ne⟩ : ∃ s0, item.2.2.primary_site = some s0 ∧ s0 ≠ "" := by
    cases hp : item.2.2.primary_site with
    | none => rw [hp] at htr; simp [truthy] at htr
    | some s => 
      rw [hp] at htr
      refine ⟨s, rfl, ?_⟩
      simpa [truthy] using htr
  have hsite : (processItem i acc item).site = alistSet acc.site item.1 s0 := by
    rw [processItem_site_eq, hs0]
    simp only [if_neg (show ¬(s0 == "") = true by simpa using hs0ne)]
  constructor
  · intro e he
    rw [processItem_total_eq] at he
    refine alistSet_forall hinv.1 ?_ e he
    have := alistGetD_nonneg acc.total item.1 hinv.1
    dsimp only
    linarith
  · intro cid hcid
    rw [processItem_total_eq] at hcid
    rw [hsite]
    rcases (mem_keys_alistSet acc.total item.1 _ cid).mp hcid with hold | rfl
    · obtain ⟨s, hs, hne⟩ := hinv.2 cid hold
      by_cases hc : item.1 = cid
      · subst hc
        exact ⟨s0, alistGet_set_self _ _ _, hs0ne⟩
      · rw [alistGet_set_ne _ _ _ _ hc]
        exact ⟨s, hs, hne⟩
    · exact ⟨s0, alistGet_set_self _ _ _, hs0ne⟩

theorem processBatch_inv (i : ℕ) (b : List (String × ℚ × Payload)) :
    ∀ (acc : CaseAcc),
      (∀ item ∈ b, 0 < item.2.1 ∧ truthy item.2.2.primary_site) →
      AccInv acc → AccInv (processBatch acc (i, b)) := by
  induction b with
  | nil => intro acc _ h; exact h
  | cons item t ih =>
    intro acc hb h
    have hstep : processBatch acc (i, item :: t) =
        processBatch (processItem i acc item) (i, t) := rfl
    rw [hstep]
    refine ih _ (fun it hit => hb it (List.mem_cons_of_mem _ hit)) ?_
    have := hb item (List.mem_cons_self _ _)
    exact processItem_inv i acc item this.1 this.2 h

theorem aggChunks_inv (l : List (ℕ × List (String × ℚ × Payload)))
    (hl : ∀ ib ∈ l, ∀ item ∈ ib.2, 0 < item.2.1 ∧ truthy item.2.2.primary_site) :
    AccInv (aggChunks l) := by
  rw [aggChunks]
  have main : ∀ (l2 : List (ℕ × List (String × ℚ × Payload))) (acc : CaseAcc),
      (∀ ib ∈ l2, ∀ item ∈ ib.2, 0 < item.2.1 ∧ truthy item.2.2.primary_site) →
      AccInv acc → AccInv (l2.foldl processBatch acc) := by
    intro l2
    induction l2 with
    | nil => intro acc _ h; exact h
    | cons ib t ih =>
      intro acc hb h
      rw [List.foldl_cons]
      refine ih _ (fun x hx => hb x (List.mem_cons_of_mem _ hx)) ?_
      rw [show processBatch acc ib = processBatch acc (ib.1, ib.2) from rfl]
      exact processBatch_inv ib.1 ib.2 acc (hb ib (List.mem_cons_self _ _)) h
  refine main l emptyAcc hl ?_
  constructor
  · intro e he; simp [emptyAcc] at he
  · intro cid hcid; simp [emptyAcc, alistKeys] at hcid

theorem clinical_quality_boost_pos (p : Payload) : 0 < clinical_quality_boost p := by
  rw [clinical_quality_boost]
  have h1 : (0 : ℚ) < (0.92 : ℚ) ^ countPatterns GENERIC_PATTERNS
      (strLower (p.chunk_text.getD "")) := pow_pos (by norm_num) _
  have h2 : (0 : ℚ) < (1.06 : ℚ) ^ countPatterns STRONG_PATTERNS
      (strLower (p.chunk_text.getD "")) := pow_pos (by norm_num) _
  split_ifs <;> positivity

theorem bonusOf_pos (s : ℕ) : 0 < bonusOf s := by
  rw [bonusOf, CONSISTENCY_BONUS]
  have h : (0 : ℚ) ≤ ((max 0 ((s : ℤ) - 1) : ℤ) : ℚ) := by
    have : (0 : ℤ) ≤ max 0 ((s : ℤ) - 1) := le_max_left _ _
    exact_mod_cast this
  nlinarith

theorem case_final_score_pos (acc : CaseAcc) (hinv : AccInv acc) :
    ∀ e ∈ case_final_score acc, 0 < e.2 := by
  intro e he
  rw [case_final_score] at he
  rcases List.mem_map.mp he with ⟨e0, he0, rfl⟩
  dsimp only
  exact mul_pos (mul_pos (hinv.1 e0 he0) (bonusOf_pos _)) (clinical_quality_boost_pos _)

theorem site_scores_fold_pos (acc : CaseAcc) :
    ∀ (l : List (String × ℚ)) (m : List (String × ℚ)),
      (∀ e ∈ l, 0 < e.2) → (∀ e ∈ m, 0 < e.2) →
      ∀ e ∈ l.foldl (siteScoresStep acc) m, 0 < e.2 := by
  intro l
  induction l with
  | nil => intro m _ hm e he; exact hm e he
  | cons e0 t ih =>
    intro m hl hm e he
    rw [List.foldl_cons] at he
    refine ih _ (fun x hx => hl x (List.mem_cons_of_mem _ hx)) ?_ e he
    rw [siteScoresStep]
    split
    · split
      · exact hm
      · intro x hx
        refine alistSet_forall hm ?_ x hx
        rename_i site hsite hne
        have h1 := alistGetD_nonneg m site hm
        have h2 := hl e0 (List.mem_cons_self _ _)
        dsimp only
        linarith
    · exact hm

theorem site_scores_fold_keys (acc : CaseAcc) :
    ∀ (l : List (String × ℚ)) (m : List (String × ℚ)) (s : String),
      (s ∈ alistKeys (l.foldl (siteScoresStep acc) m) ↔
        s ∈ alistKeys m ∨ ∃ e ∈ l, alistGet acc.site e.1 = some s ∧ s ≠ "") := by
  intro l
  induction l with
  | nil => intro m s; simp
  | cons e0 t ih =>
    intro m s
    rw [List.foldl_cons, ih]
    have hstep : s ∈ alistKeys (siteScoresStep acc m e0) ↔
        s ∈ alistKeys m ∨ (alistGet acc.site e0.1 = some s ∧ s ≠ "") := by
      rw [siteScoresStep]
      split
      · rename_i site heq
        rw [heq]
        by_cases hne : site == ""
        · rw [if_pos hne]
          have hse : site = "" := by simpa using hne
          subst hse
          constructor
          · exact Or.inl
          · rintro (h | ⟨h1, h2⟩)
            · exact h
            · cases h1; exact absurd rfl h2
        · rw [if_neg hne, mem_keys_alistSet]
          constructor
          · rintro (h | rfl)
            · exact Or.inl h
            · exact Or.inr ⟨rfl, by simpa using hne⟩
          · rintro (h | ⟨h1, h2⟩)
            · exact Or.inl h
            · cases h1; exact Or.inr rfl
      · rename_i heq
        rw [heq]
        simp
    rw [hstep]
    constructor
    · rintro ((h | h) | ⟨e, he, hh⟩)
      · exact Or.inl h
      · exact Or.inr ⟨e0, List.mem_cons_self _ _, h⟩
      · exact Or.inr ⟨e, List.mem_cons_of_mem _ he, hh⟩
    · rintro (h | ⟨e, he, hh⟩)
      · exact Or.inl (Or.inl h)
      · rcases List.mem_cons.mp he with rfl | hmem
        · exact Or.inl (Or.inr hh)
        · exact Or.inr ⟨e, hmem, hh⟩

theorem alistGet_of_mem_nodup {κ ν : Type} [BEq κ] [LawfulBEq κ]
    {l : List (κ × ν)} (hnd : (alistKeys l).Nodup) {e : κ × ν} (he : e ∈ l) :
    alistGet l e.1 = some e.2 := by
  induction l with
  | nil => simp at he
  | cons x t ih =>
    rw [alistGet_cons]
    rcases List.mem_cons.mp he with rfl | hmem
    · rw [if_pos (by simp)]
    · simp only [alistKeys, List.map_cons, List.nodup_cons] at hnd
      by_cases hx : x.1 = e.1
      · exact absurd (hx ▸ mem_alistKeys_of_mem hmem) hnd.1
      · rw [if_neg (by simpa using hx)]
        exact ih hnd.2 hmem

theorem calibrate_keys (sites : List (String × ℚ)) (strong : List (String × ℕ)) :
    alistKeys (calibrate sites strong) = alistKeys sites := by
  rw [calibrate]
  have main : ∀ (ks : List String) (m : List (String × ℚ)),
      (∀ k ∈ ks, k ∈ alistKeys m) →
      alistKeys (ks.foldl (fun m2 s =>
        if alistGetD strong s 0 < 2 then alistSet m2 s (alistGetD m2 s 0.0 * 0.75) else m2) m)
        = alistKeys m := by
    intro ks
    induction ks with
    | nil => intro m _; rfl
    | cons k t ih =>
      intro m hks
      rw [List.foldl_cons]
      by_cases hP : alistGetD strong k 0 < 2
      · rw [if_pos hP]
        have hkeys := alistKeys_set m k (alistGetD m k 0.0 * 0.75)
          (hks k (List.mem_cons_self _ _))
        rw [ih _ (fun x hx => by rw [hkeys]; exact hks x (List.mem_cons_of_mem _ hx)), hkeys]
      · rw [if_neg hP]
        exact ih _ (fun x hx => hks x (List.mem_cons_of_mem _ hx))
  exact main _ _ (fun k hk => hk)

theorem calibrate_pos (sites : List (String × ℚ)) (strong : List (String × ℕ))
    (hnd : (alistKeys sites).Nodup) (hpos : ∀ e ∈ sites, 0 < e.2) :
    ∀ e ∈ calibrate sites strong, 0 < e.2 := by
  intro e he
  have hndcal : (alistKeys (calibrate sites strong)).Nodup := by
    rw [calibrate_keys]; exact hnd
  have hget : alistGet (calibrate sites strong) e.1 = some e.2 :=
    alistGet_of_mem_nodup hndcal he
  have hchar := calibrate_fold_get strong (alistKeys sites) sites e.1 hnd (fun k hk => hk)
  rw [calibrate] at hget
  rw [hchar] at hget
  by_cases hc : e.1 ∈ alistKeys sites ∧ alistGetD strong e.1 0 < 2
  · rw [if_pos hc] at hget
    obtain ⟨v, hv⟩ := Option.isSome_iff_exists.mp (alistGet_isSome_of_mem_keys hc.1)
    rw [hv] at hget
    have hvpos := hpos _ (mem_of_alistGet_eq_some hv)
    have : e.2 = v * 0.75 := by simpa using hget.symm
    rw [this]
    nlinarith
  · rw [if_neg hc] at hget
    exact hpos _ (mem_of_alistGet_eq_some hget)

theorem sumValues_pos (l : List (String × ℚ)) (hne : l ≠ [])
    (hpos : ∀ e ∈ l, 0 < e.2) : 0 < sumValues l := by
  cases l with
  | nil => exact absurd rfl hne
  | cons e t =>
    rw [sumValues, List.map_cons, List.sum_cons]
    have h1 := hpos e (List.mem_cons_self _ _)
    have h2 : 0 ≤ (t.map (fun e => e.2)).sum := by
      apply List.sum_nonneg
      intro x hx
      rcases List.mem_map.mp hx with ⟨e2, he2, rfl⟩
      exact le_of_lt (hpos e2 (List.mem_cons_of_mem _ he2))
    linarith

/-- C10: whenever the probability map is non-empty its values are all strictly
positive, and its key set is exactly the set of primary sites recorded for the
retained cases; a case is only retained with a strictly positive contrib, so
all accumulated totals are positive. -/
theorem claim_C10_positive_probabilities (chunks : List RetrievedChunk) :
    (∀ c ∈ chunks, ∀ item ∈ chunkBatch c, 0 < item.2.1)
    ∧ (∀ e ∈ (predictAcc chunks).total, 0 < e.2)
    ∧ (∀ sv ∈ (predictOk chunks).1, 0 < sv.2)
    ∧ (∀ s, s ∈ alistKeys (predictOk chunks).1 ↔
        ∃ cid ∈ alistKeys (predictAcc chunks).total,
          alistGet (predictAcc chunks).site cid = some s) := by
  have hbatchinv : ∀ ib ∈ enumBatches chunks, ∀ item ∈ ib.2,
      0 < item.2.1 ∧ truthy item.2.2.primary_site := by
    intro ib hib item hitem
    rw [enumBatches] at hib
    rcases List.mem_map.mp hib with ⟨ia, _, rfl⟩
    exact chunkBatch_invariant ia.2 item hitem
  have haccinv : AccInv (predictAcc chunks) := aggChunks_inv _ hbatchinv
  have hcfpos : ∀ e ∈ predictCaseFinal chunks, 0 < e.2 :=
    case_final_score_pos _ haccinv
  have hprepos : ∀ e ∈ predictSitesPre chunks, 0 < e.2 := by
    intro e he
    exact site_scores_fold_pos (predictAcc chunks) (predictCaseFinal chunks) []
      hcfpos (by intro x hx; simp at hx) e he
  have hprend : (alistKeys (predictSitesPre chunks)).Nodup :=
    site_scores_pre_nodup_keys _ _
  have hcalpos : ∀ e ∈ predictSitesCal chunks, 0 < e.2 :=
    calibrate_pos _ _ hprend hprepos
  have hcalkeys : alistKeys (predictSitesCal chunks) = alistKeys (predictSitesPre chunks) :=
    calibrate_keys _ _
  have hpcteq : (predictOk chunks).1 = normalizePct (predictSitesCal chunks) := rfl
  have hkeyspct : alistKeys (predictOk chunks).1 = alistKeys (predictSitesCal chunks) := by
    rw [hpcteq, normalizePct]
    by_cases hT : 0 < sumValues (predictSitesCal chunks)
    · rw [if_pos hT]
      exact alistKeys_map_values _ (fun k v => v / sumValues (predictSitesCal chunks) * 100.0)
    · rw [if_neg hT]
      by_cases hnil : predictSitesCal chunks = []
      · rw [hnil]
      · exact absurd (sumValues_pos _ hnil hcalpos) hT
  refine ⟨?_, haccinv.1, ?_, ?_⟩
  · intro c _ item hitem
    exact (chunkBatch_invariant c item hitem).1
  · intro sv hsv
    rw [hpcteq, normalizePct] at hsv
    by_cases hT : 0 < sumValues (predictSitesCal chunks)
    · rw [if_pos hT] at hsv
      rcases List.mem_map.mp hsv with ⟨e0, he0, rfl⟩
      have hv := hcalpos e0 he0
      dsimp only
      positivity
    · rw [if_neg hT] at hsv
      simp at hsv
  · intro s
    rw [hkeyspct, hcalkeys]
    have hchar := site_scores_fold_keys (predictAcc chunks) (predictCaseFinal chunks) [] s
    rw [show predictSitesPre chunks =
      (predictCaseFinal chunks).foldl (siteScoresStep (predictAcc chunks)) [] from rfl]
    rw [hchar]
    have hkeyscf : alistKeys (predictCaseFinal chunks) = alistKeys (predictAcc chunks).total := by
      rw [predictCaseFinal, case_final_score]
      exact alistKeys_map_values (predictAcc chunks).total
        (fun k v => v * bonusOf (alistGetD (predictAcc chunks).support k []).length
          * clinical_quality_boost (alistGetD (predictAcc chunks).bestPayload k emptyPayload))
    constructor
    · rintro (h | ⟨e, he, hget, hne⟩)
      · simp [alistKeys] at h
      · refine ⟨e.1, ?_, hget⟩
        rw [← hkeyscf]
        exact mem_alistKeys_of_mem he
    · rintro ⟨cid, hcid, hget⟩
      right
      have hcid2 : cid ∈ alistKeys (predictCaseFinal chunks) := by rw [hkeyscf]; exact hcid
      rcases List.mem_map.mp hcid2 with ⟨e, he, rfl⟩
      refine ⟨e, he, hget, ?_⟩
      obtain ⟨s2, hs2, hs2ne⟩ := haccinv.2 e.1 hcid
      rw [hget] at hs2
      cases hs2
      exact hs2ne

/-- Witness for C10: the two-case chunk of the C4 development; its first
retained batch entry has the strictly positive contrib `7/610`. -/
theorem claim_C10_positive_probabilities_witness :
    c4_chunk0 ∈ [c4_chunk0]
    ∧ ("c", (7/610 : ℚ), plC_IHC) ∈ chunkBatch c4_chunk0
    ∧ 0 < ((7/610 : ℚ)) := by
  have hbatch : chunkBatch c4_chunk0 =
      [("c", (7/610 : ℚ), plC_IHC), ("d", (7/620 : ℚ), plD_IHC)] := by
    with_unfolding_all rfl
  have hmem : ("c", (7/610 : ℚ), plC_IHC) ∈ chunkBatch c4_chunk0 := by
    rw [hbatch]
    exact List.mem_cons_self _ _
  exact ⟨List.mem_cons_self _ _, hmem,
    (claim_C10_positive_probabilities [c4_chunk0]).1 c4_chunk0
      (List.mem_cons_self _ _) _ hmem⟩
